import Mathlib

/-!
Verification of the conversation tree/branch engine of the chat service
(`server/services/chat-service.js`): schema-v2 chats store messages as an
insertion-ordered id-keyed map of nodes linked by `parentId`, together with a
list of branches (tip + fork-point pointers into that map).  The definitions
below are a shallow embedding of that code: JavaScript objects become
association lists (`setMsg` mirrors property assignment, `eraseMsg` mirrors
`delete`), the nondeterministic id generators become explicit parameters, and
the unbounded `while` walk of `getMessagePath` becomes a fuelled walk whose
fuel (map size + 1) is proved sufficient whenever the walk terminates at all.
-/

namespace ChatService

/-- A schema-v2 message node.  Optional provider/model metadata carried by the
JS objects is not modelled; no property below depends on it. -/

structure Message where
  id : String
  parentId : Option String
  role : String
  content : String
  timestamp : String
deriving Repr, DecidableEq

/-- A branch: a named tip pointer into the message map plus its fork origin. -/

structure Branch where
  id : String
  name : String
  createdAt : String
  forkPointMessageId : Option String
  tipMessageId : Option String
  isActive : Bool
deriving Repr, DecidableEq

/-- The id-keyed message map, in JS-object insertion order. -/

abbrev Msgs := List (String × Message)

/-- A schema-v2 chat document. -/

structure Chat where
  schemaVersion : Nat
  id : String
  templateId : String
  title : String
  createdAt : String
  updatedAt : String
  providerOverride : Option String
  messages : Msgs
  branches : List Branch
  activeBranchId : String
deriving Repr, DecidableEq

/-- A legacy (v1) message: an element of the linear `messages` array. -/

structure MessageV1 where
  role : String
  content : String
  timestamp : String
deriving Repr, DecidableEq

/-- A legacy (v1) chat document: messages as an ordered array, no branches. -/

structure ChatV1 where
  id : String
  templateId : String
  title : String
  createdAt : String
  updatedAt : String
  providerOverride : Option String
  messages : List MessageV1
deriving Repr, DecidableEq

/-- An on-disk chat document, either generation. -/

inductive ChatDoc where
  | v1 (c : ChatV1)
  | v2 (c : Chat)
deriving Repr, DecidableEq

def CURRENT_SCHEMA_VERSION : Nat := 2

/-- Property lookup `chat.messages[id]` on the message object. -/

def lookupMsg : Msgs → String → Option Message
  | [], _ => none
  | (k, m) :: rest, id => if k == id then some m else lookupMsg rest id

/-- Property assignment `chat.messages[id] = msg`: overwrite in place, or append a new key. -/

def setMsg : Msgs → String → Message → Msgs
  | [], k, m => [(k, m)]
  | (k', m') :: rest, k, m =>
    if k' == k then (k, m) :: rest else (k', m') :: setMsg rest k m

/-- Property deletion `delete chat.messages[id]`. -/

def eraseMsg : Msgs → String → Msgs
  | [], _ => []
  | (k, m) :: rest, id => if k == id then eraseMsg rest id else (k, m) :: eraseMsg rest id

/-- JS `Array.prototype.indexOf`: first index of `x`, or `-1`. -/

def jsIndexOf : List String → String → Int
  | [], _ => -1
  | h :: t, x =>
    if h == x then 0
    else if jsIndexOf t x = -1 then -1 else jsIndexOf t x + 1

/-- JS `chat.branches.find(b => b.id === branchId)`. -/

def findBranch (bs : List Branch) (branchId : String) : Option Branch :=
  bs.find? (fun b => b.id == branchId)

/-- JS `findIndex` + element access + `splice(i, 1)`, packaged as the branches before,
the first matching branch, and the suffix. -/

def splitFirstBranch : List Branch → String → Option (List Branch × Branch × List Branch)
  | [], _ => none
  | b :: rest, bid =>
    if b.id == bid then some ([], b, rest)
    else (splitFirstBranch rest bid).map (fun pbs => (b :: pbs.1, pbs.2.1, pbs.2.2))

/-- The body of `getMessagePath`'s `while` loop, with explicit fuel: visit the
current id (even when it no longer resolves), then continue from its parent.
Returns the visited ids in root-to-target order. -/

def pathIds (msgs : Msgs) : Nat → Option String → List String
  | _, none => []
  | 0, some _ => []
  | fuel + 1, some id =>
    match lookupMsg msgs id with
    | none => [id]
    | some m => pathIds msgs fuel m.parentId ++ [id]

/-- Body of `getMessagePath(chat, messageId)` on a bare message map: empty unless the
target id resolves, else the parent-link walk from the target to a root
(or to the first missing ancestor, which is included). -/

def getMessagePathM (msgs : Msgs) (messageId : Option String) : List String :=
  match messageId with
  | none => []
  | some id =>
    if (lookupMsg msgs id).isSome then pathIds msgs (msgs.length + 1) (some id)
    else []

/-- Source `getMessagePath(chat, messageId)`. -/

def getMessagePath (chat : Chat) (messageId : Option String) : List String :=
  getMessagePathM chat.messages messageId

/-- Source `getBranchMessages(chat, branchId)`: the root-to-tip path of the branch,
mapped through the message map (`undefined` entries become `none`). -/

def getBranchMessages (chat : Chat) (branchId : String) : List (Option Message) :=
  match findBranch chat.branches branchId with
  | none => []
  | some branch =>
    (getMessagePath chat branch.tipMessageId).map (lookupMsg chat.messages)

/-- The payload of an `addMessage` call: role and content. -/

structure NewMessage where
  role : String
  content : String
deriving Repr, DecidableEq

/-- Options of `addMessage`.  `parentId = some p` models an explicitly passed
parent (`p = none` being an explicit `null`); `none` models omission, in which
case the target branch's tip is used. -/

structure AddMessageOptions where
  parentId : Option (Option String) := none
  branchId : Option String := none
deriving Repr, DecidableEq

/-- Options of `createBranch`. -/

structure CreateBranchOptions where
  forkPointMessageId : Option String := none
  name : Option String := none
deriving Repr, DecidableEq

/-- The first up-to-five whitespace-separated words of the first user message,
used by `addMessage` to auto-derive a chat title. -/

def firstWords (content : String) : String :=
  String.intercalate " " (((content.split Char.isWhitespace).filter (· ≠ "")).take 5)

/-- Source `createChat(templateId, title, providerOverride)`.  The generated chat id
and the two clock readings (ISO timestamp, locale date string for the default
title) are explicit parameters. -/

def createChat (id templateId : String) (title : Option String)
    (providerOverride : Option String) (now dateStr : String) : Chat :=
  { schemaVersion := CURRENT_SCHEMA_VERSION
    id := id
    templateId := templateId
    title := title.getD ("Chat " ++ dateStr)
    createdAt := now
    updatedAt := now
    providerOverride := providerOverride
    messages := []
    branches := [{ id := "branch-main", name := "Main", createdAt := now,
                   forkPointMessageId := none, tipMessageId := none, isActive := true }]
    activeBranchId := "branch-main" }

/-- Source `addMessage(chatId, message, options)` on an in-memory chat; the generated
message id and the clock reading are explicit parameters. -/

def addMessage (c : Chat) (message : NewMessage) (options : AddMessageOptions)
    (msgId : String) (now : String) : Except String (Message × Chat) :=
  let targetBranchId := options.branchId.getD c.activeBranchId
  match splitFirstBranch c.branches targetBranchId with
  | none => .error ("Branch \"" ++ targetBranchId ++ "\" not found")
  | some (pre, branch, suf) =>
    let parentId : Option String :=
      match options.parentId with
      | some p => p
      | none => branch.tipMessageId
    let msg : Message :=
      { id := msgId, parentId := parentId, role := message.role,
        content := message.content, timestamp := now }
    let newMessages := setMsg c.messages msgId msg
    let newBranches := pre ++ ({ branch with tipMessageId := some msgId } :: suf)
    let messageCount := newMessages.length
    let newTitle :=
      if messageCount == 1 && message.role == "user" && c.title.startsWith "Chat " then
        let fw := firstWords message.content
        if fw.length > 30 then fw.take 30 ++ "..." else fw
      else c.title
    .ok (msg, { c with messages := newMessages, branches := newBranches,
                       updatedAt := now, title := newTitle })

/-- Source `createBranch(chatId, {forkPointMessageId, name})`; the generated branch id
and the clock reading are explicit parameters. -/

def createBranch (c : Chat) (options : CreateBranchOptions)
    (branchId : String) (now : String) : Except String (Branch × Chat) :=
  let forkOk :=
    match options.forkPointMessageId with
    | some fp => (lookupMsg c.messages fp).isSome
    | none => true
  if forkOk then
    let branchNumber := c.branches.length + 1
    let newBranch : Branch :=
      { id := branchId
        name := options.name.getD ("Branch " ++ toString branchNumber)
        createdAt := now
        forkPointMessageId := options.forkPointMessageId
        tipMessageId := options.forkPointMessageId
        isActive := false }
    .ok (newBranch, { c with branches := c.branches ++ [newBranch], updatedAt := now })
  else .error "Fork point message not found"

/-- Source `setActiveBranch(chatId, branchId)`: deactivate all branches, activate the
selected one. -/

def setActiveBranch (c : Chat) (branchId : String) (now : String) : Except String Chat :=
  if (findBranch c.branches branchId).isSome then
    .ok { c with branches := c.branches.map (fun b => { b with isActive := b.id == branchId }),
                 activeBranchId := branchId, updatedAt := now }
  else .error ("Branch \"" ++ branchId ++ "\" not found")

/-- Source `updateBranch(chatId, branchId, updates)`: rename only. -/

def updateBranch (c : Chat) (branchId : String) (name : Option String)
    (now : String) : Except String Chat :=
  match splitFirstBranch c.branches branchId with
  | none => .error ("Branch \"" ++ branchId ++ "\" not found")
  | some (pre, b, suf) =>
    let b' := match name with | some n => { b with name := n } | none => b
    .ok { c with branches := pre ++ (b' :: suf), updatedAt := now }

/-- The message-deletion loop of `deleteBranch`: walk the branch-exclusive
slice in root-to-tip order, deleting each message not on any other branch's
current root-to-tip path. -/

def deleteBranchMsgsLoop (branches : List Branch) (deletedId : String)
    (toDelete : List String) (msgs : Msgs) : Msgs :=
  toDelete.foldl
    (fun ms msgId =>
      if branches.any (fun b2 =>
          b2.id != deletedId && (getMessagePathM ms b2.tipMessageId).contains msgId)
      then ms
      else eraseMsg ms msgId)
    msgs

/-- Source `deleteBranch(chatId, branchId, deleteMessages)`; the clock reading is an
explicit parameter. -/

def deleteBranch (c : Chat) (branchId : String) (deleteMessages : Bool)
    (now : String) : Except String Chat :=
  match splitFirstBranch c.branches branchId with
  | none => .error ("Branch \"" ++ branchId ++ "\" not found")
  | some (pre, branch, suf) =>
    if branch.id == "branch-main" then .error "Cannot delete the main branch"
    else
      let newMessages :=
        match deleteMessages, branch.forkPointMessageId with
        | true, some fork =>
          let branchPath := getMessagePathM c.messages branch.tipMessageId
          let forkIndex := jsIndexOf branchPath fork
          let branchOnlyMessages := branchPath.drop (forkIndex + 1).toNat
          deleteBranchMsgsLoop c.branches branchId branchOnlyMessages c.messages
        | _, _ => c.messages
      let remaining := pre ++ suf
      if c.activeBranchId == branchId then
        .ok { c with messages := newMessages
                     branches := remaining.map
                       (fun b => if b.id == "branch-main" then { b with isActive := true } else b)
                     activeBranchId := "branch-main"
                     updatedAt := now }
      else
        .ok { c with messages := newMessages, branches := remaining, updatedAt := now }

/-- Source `clearMessages(chatId)`: reset to an empty message map and a single fresh
main branch. -/

def clearMessages (c : Chat) (now : String) : Chat :=
  { c with messages := []
           branches := [{ id := "branch-main", name := "Main", createdAt := c.createdAt,
                          forkPointMessageId := none, tipMessageId := none, isActive := true }]
           activeBranchId := "branch-main"
           updatedAt := now }

/-- The v1-to-v2 message loop of `migrateToTreeStructure`: assign each array
element the next fresh id and link it to the previous element's id.  Returns
the built map and the last assigned id. -/

def migrateMsgs (fresh : Nat → String) :
    List MessageV1 → Nat → Msgs → Option String → Msgs × Option String
  | [], _, acc, prevId => (acc, prevId)
  | m :: rest, k, acc, prevId =>
    let id := fresh k
    let node : Message :=
      { id := id, parentId := prevId, role := m.role,
        content := m.content, timestamp := m.timestamp }
    migrateMsgs fresh rest (k + 1) (setMsg acc id node) (some id)

/-- Source `migrateToTreeStructure(chat)`: a chat already at the current schema
version is returned unchanged; a v1 chat is rebuilt as a strictly linear tree
with a single main branch.  The fresh message ids are an explicit parameter.
`none` models the type error the JS code would hit on a v2-shaped document
whose schemaVersion is not current (its object `messages` is not iterable). -/

def migrateToTreeStructure (fresh : Nat → String) : ChatDoc → Option ChatDoc
  | .v2 c => if c.schemaVersion = CURRENT_SCHEMA_VERSION then some (.v2 c) else none
  | .v1 c =>
    let (messagesObj, prevId) := migrateMsgs fresh c.messages 0 [] none
    some (.v2
      { schemaVersion := CURRENT_SCHEMA_VERSION
        id := c.id
        templateId := c.templateId
        title := c.title
        createdAt := c.createdAt
        updatedAt := c.updatedAt
        providerOverride := c.providerOverride
        messages := messagesObj
        branches := [{ id := "branch-main", name := "Main", createdAt := c.createdAt,
                       forkPointMessageId := none, tipMessageId := prevId, isActive := true }]
        activeBranchId := "branch-main" })

/-! ### Parent-link walks

`WalkTo msgs oid l` captures a terminating run of `getMessagePath`'s `while`
loop starting at `oid`: `l` is the list of visited ids in root-to-target
order.  The walk ends either at a true root (a resolved message whose
`parentId` is null) or at an id absent from the map, which is still visited.
`PathTo` is the sub-relation of fully resolving walks, and `ChainTo` states
that a fully resolving walk exists. -/

inductive WalkTo (msgs : Msgs) : Option String → List String → Prop
  | root : WalkTo msgs none []
  | missing (id : String) : lookupMsg msgs id = none → WalkTo msgs (some id) [id]
  | step (id : String) (m : Message) (l : List String) :
      lookupMsg msgs id = some m → WalkTo msgs m.parentId l → WalkTo msgs (some id) (l ++ [id])

inductive PathTo (msgs : Msgs) : Option String → List String → Prop
  | root : PathTo msgs none []
  | step (id : String) (m : Message) (l : List String) :
      lookupMsg msgs id = some m → PathTo msgs m.parentId l → PathTo msgs (some id) (l ++ [id])

/-- The ancestor chain of `oid` fully resolves: following parent links reaches
a root without ever consulting an id absent from the map (hence no cycles). -/

def ChainTo (msgs : Msgs) (oid : Option String) : Prop := ∃ l, PathTo msgs oid l

/-! ### An executable chain resolver, used to discharge `ChainTo` hypotheses
on concrete chats -/

def chainResolvesFuel (msgs : Msgs) : Nat → Option String → Bool
  | _, none => true
  | 0, some _ => false
  | fuel + 1, some id =>
    match lookupMsg msgs id with
    | none => false
    | some m => chainResolvesFuel msgs fuel m.parentId

def chainResolves (msgs : Msgs) (oid : Option String) : Bool :=
  chainResolvesFuel msgs (msgs.length + 1) oid

/-! ### Reachable chat states

The core operations run on the persisted chat document; each successful call
rewrites the document, and a failed call returns `{success: false}` before
writing, leaving the state unchanged.  `StepR` is one successful mutating
call; the generated ids are parameters constrained to be globally fresh,
modelling `crypto.randomUUID`.  With `safe = true`, explicitly supplied
parent ids and fork points are additionally required to have fully resolving
ancestor chains. -/

def TipsOk (c : Chat) : Prop := ∀ b ∈ c.branches, ChainTo c.messages b.tipMessageId

def ActiveOk (c : Chat) : Prop :=
  (c.branches.map Branch.id).Nodup ∧
  (∃ b ∈ c.branches, b.id = "branch-main") ∧
  (∃ b ∈ c.branches, b.id = c.activeBranchId) ∧
  (∀ b ∈ c.branches, b.isActive = true ↔ b.id = c.activeBranchId)

/-- The generated message id is not already a key of the message map. -/

def MsgIdFresh (c : Chat) (id : String) : Prop := lookupMsg c.messages id = none

/-- The generated branch id differs from every existing branch id. -/

def BranchIdFresh (c : Chat) (bid : String) : Prop := ∀ b ∈ c.branches, b.id ≠ bid

instance (c : Chat) (id : String) : Decidable (MsgIdFresh c id) :=
  inferInstanceAs (Decidable (lookupMsg c.messages id = none))

instance (c : Chat) (bid : String) : Decidable (BranchIdFresh c bid) :=
  inferInstanceAs (Decidable (∀ b ∈ c.branches, b.id ≠ bid))

inductive StepR (safe : Bool) : Chat → Chat → Prop
  | add {c : Chat} (message : NewMessage) (options : AddMessageOptions)
      (msgId now : String) {m : Message} {c' : Chat}
      (hfresh : MsgIdFresh c msgId)
      (hsafe : safe = true → ∀ p, options.parentId = some (some p) →
        ChainTo c.messages (some p))
      (h : addMessage c message options msgId now = .ok (m, c')) : StepR safe c c'
  | newBranch {c : Chat} (options : CreateBranchOptions) (branchId now : String)
      {b : Branch} {c' : Chat}
      (hfresh : BranchIdFresh c branchId)
      (hsafe : safe = true → ∀ fp, options.forkPointMessageId = some fp →
        ChainTo c.messages (some fp))
      (h : createBranch c options branchId now = .ok (b, c')) : StepR safe c c'
  | setActive {c : Chat} (branchId now : String) {c' : Chat}
      (h : setActiveBranch c branchId now = .ok c') : StepR safe c c'
  | rename {c : Chat} (branchId : String) (name : Option String) (now : String) {c' : Chat}
      (h : updateBranch c branchId name now = .ok c') : StepR safe c c'
  | remove {c : Chat} (branchId : String) (deleteMessages : Bool) (now : String) {c' : Chat}
      (h : deleteBranch c branchId deleteMessages now = .ok c') : StepR safe c c'
  | clear (c : Chat) (now : String) : StepR safe c (clearMessages c now)

/-- A chat as first persisted: either created by `createChat`, or produced by
the v1-to-v2 migration (with pairwise distinct generated message ids). -/

inductive InitialChat : Chat → Prop
  | create (id templateId : String) (title providerOverride : Option String)
      (now dateStr : String) :
      InitialChat (createChat id templateId title providerOverride now dateStr)
  | migrate (fresh : Nat → String) (v1 : ChatV1) (c' : Chat)
      (hids : ((List.range v1.messages.length).map fresh).Nodup)
      (h : migrateToTreeStructure fresh (.v1 v1) = some (.v2 c')) : InitialChat c'

def ReachableW (safe : Bool) (c : Chat) : Prop :=
  ∃ c₀, InitialChat c₀ ∧ Relation.ReflTransGen (StepR safe) c₀ c

/-- Reachable by any sequence of core operations. -/

def Reachable (c : Chat) : Prop := ReachableW false c

/-- Reachable by core operations whose explicitly supplied parent ids and
fork points have fully resolving ancestor chains. -/

def ReachableSafe (c : Chat) : Prop := ReachableW true c

/-- The branch-exclusive slice of a branch path: everything strictly after the
fork point (the whole path when `indexOf` misses and returns `-1`). -/

def branchExclusiveSlice (c : Chat) (b : Branch) (fork : String) : List String :=
  (getMessagePath c b.tipMessageId).drop
    ((jsIndexOf (getMessagePath c b.tipMessageId) fork + 1).toNat)

/-- Predicate: `id` lies on the root-to-tip path of some branch other than `bid`. -/

def UsedByOther (c : Chat) (bid : String) (id : String) : Prop :=
  ∃ b2 ∈ c.branches, b2.id ≠ bid ∧ id ∈ getMessagePath c b2.tipMessageId

/-- A chat holding a single message whose parent id does not resolve. -/

def cDangling : Chat :=
  { createChat "c" "tpl" none none "t0" "d0" with
    messages := [("m2", { id := "m2", parentId := some "m1", role := "user",
                          content := "x", timestamp := "t" })] }

/-- The node the migration builds for array element `m` under id `nid` with
predecessor `prev`. -/

def migNode (nid : String) (prev : Option String) (m : MessageV1) : Message :=
  { id := nid, parentId := prev, role := m.role, content := m.content,
    timestamp := m.timestamp }

/-- The message map the migration is expected to build from index `k` on:
one entry per array element, in array order, each linked to its predecessor. -/

def linChain (fresh : Nat → String) : List MessageV1 → Nat → Option String → Msgs
  | [], _, _ => []
  | m :: rest, k, prev =>
    (fresh k, migNode (fresh k) prev m) :: linChain fresh rest (k + 1) (some (fresh k))

/-- Concrete fresh-id generator for the migration witness. -/

def freshW : Nat → String := fun i => "n" ++ toString i

/-- Concrete two-message v1 chat for the migration witness. -/

def v1W : ChatV1 :=
  { id := "id1", templateId := "tpl", title := "T", createdAt := "ca",
    updatedAt := "ua", providerOverride := none,
    messages := [{ role := "user", content := "a", timestamp := "t1" },
                 { role := "assistant", content := "b", timestamp := "t2" }] }

/-- Concrete root message for the fork witness. -/

def mW1 : Message :=
  { id := "m1", parentId := none, role := "user", content := "one", timestamp := "t1" }

/-- Concrete second message for the fork witness. -/

def mW2 : Message :=
  { id := "m2", parentId := some "m1", role := "assistant", content := "two", timestamp := "t2" }

/-- Concrete main branch for the fork witness. -/

def bWmain : Branch :=
  { id := "branch-main", name := "Main", createdAt := "t0",
    forkPointMessageId := none, tipMessageId := some "m2", isActive := true }

/-- Concrete two-message chat for the fork witness. -/

def cW : Chat :=
  { schemaVersion := 2, id := "c", templateId := "tpl", title := "T",
    createdAt := "t0", updatedAt := "t2", providerOverride := none,
    messages := [("m1", mW1), ("m2", mW2)],
    branches := [bWmain], activeBranchId := "branch-main" }

/-- Concrete branch-exclusive message for the deleteBranch witness. -/

def mW3 : Message :=
  { id := "m3", parentId := some "m1", role := "user", content := "new", timestamp := "t4" }

/-- Concrete deletable branch (fork `m1`, tip `m3`) for the deleteBranch witness. -/

def bW1 : Branch :=
  { id := "b1", name := "Branch 2", createdAt := "t3",
    forkPointMessageId := some "m1", tipMessageId := some "m3", isActive := false }

/-- Concrete chat of spec Scenario D: main holds `m1, m2`; branch `b1` forks
at `m1` and exclusively holds `m3`. -/

def cW2 : Chat :=
  { cW with messages := [("m1", mW1), ("m2", mW2), ("m3", mW3)],
            branches := [bWmain, bW1] }

/-- Concrete freshly created chat for the active-branch witness. -/

def c3w0 : Chat := createChat "c" "tpl" none none "t0" "d0"

/-- The witness chat after creating a second branch. -/

def c3w1 : Chat :=
  match createBranch c3w0 {} "b1" "t1" with
  | .ok (_, c) => c
  | .error _ => c3w0

/-- The witness chat after switching to the second branch. -/

def c3w2 : Chat :=
  match setActiveBranch c3w1 "b1" "t2" with
  | .ok c => c
  | .error _ => c3w1

/-- C1 counterexample: the base chat for the unvalidated-parent scenario. -/

def cBad0 : Chat := createChat "c" "tpl" none none "t0" "d0"

/-- C1 counterexample: the chat after one `addMessage` whose explicit
`parentId` names a nonexistent message. -/

def cBad : Chat :=
  match addMessage cBad0 ⟨"user", "hi"⟩ { parentId := some (some "ghost") } "m1" "t1" with
  | .ok (_, c) => c
  | .error _ => cBad0

/-- Witness for C1 on a concrete safely-reachable chat (one default
`addMessage` after `createChat`). -/

def cSafe : Chat :=
  match addMessage cBad0 ⟨"user", "hi"⟩ {} "m1" "t1" with
  | .ok (_, c) => c
  | .error _ => cBad0

/-! ### Basic properties of the map operations -/

theorem lookupMsg_setMsg (msgs : Msgs) (k : String) (m : Message) (id : String) :
    lookupMsg (setMsg msgs k m) id = if k = id then some m else lookupMsg msgs id := by
  induction msgs with
  | nil => simp [setMsg, lookupMsg, beq_iff_eq]
  | cons e rest ih =>
    obtain ⟨k', m'⟩ := e
    by_cases hk : k' = k
    · subst hk
      by_cases hid : k' = id
      · simp [setMsg, lookupMsg, beq_iff_eq, hid]
      · simp [setMsg, lookupMsg, beq_iff_eq, hid]
    · by_cases hid : k' = id
      · subst hid
        have hki : ¬k = k' := fun h => hk h.symm
        simp [setMsg, lookupMsg, beq_iff_eq, hk, hki]
      · simp [setMsg, lookupMsg, beq_iff_eq, hk, hid, ih]

theorem lookupMsg_eraseMsg (msgs : Msgs) (x id : String) :
    lookupMsg (eraseMsg msgs x) id = if id = x then none else lookupMsg msgs id := by
  induction msgs with
  | nil => simp [eraseMsg, lookupMsg]
  | cons e rest ih =>
    obtain ⟨k, m⟩ := e
    by_cases hk : k = x
    · subst hk
      by_cases hid : id = k
      · subst hid; simp [eraseMsg, lookupMsg, ih]
      · have hki : ¬k = id := fun h => hid h.symm
        simp [eraseMsg, lookupMsg, beq_iff_eq, hid, hki, ih]
    · by_cases hid : k = id
      · have hix : ¬id = x := by rw [← hid]; exact hk
        simp [eraseMsg, lookupMsg, beq_iff_eq, hk, hid, hix]
      · simp [eraseMsg, lookupMsg, beq_iff_eq, hk, hid, ih]

theorem lookupMsg_append (msgs l : Msgs) (id : String) :
    lookupMsg (msgs ++ l) id =
      match lookupMsg msgs id with
      | some v => some v
      | none => lookupMsg l id := by
  induction msgs with
  | nil => simp [lookupMsg]
  | cons e rest ih =>
    obtain ⟨k, m⟩ := e
    by_cases hk : k = id
    · simp [lookupMsg, beq_iff_eq, hk]
    · simp [lookupMsg, beq_iff_eq, hk, ih]

theorem setMsg_eq_append (msgs : Msgs) (k : String) (m : Message)
    (h : lookupMsg msgs k = none) : setMsg msgs k m = msgs ++ [(k, m)] := by
  induction msgs with
  | nil => simp [setMsg]
  | cons e rest ih =>
    obtain ⟨k', m'⟩ := e
    by_cases hk : k' = k
    · subst hk; simp [lookupMsg] at h
    · simp only [lookupMsg, beq_iff_eq, hk, if_false] at h
      simp [setMsg, beq_iff_eq, hk, ih h]

theorem lookupMsg_mem_keys {msgs : Msgs} {id : String} {m : Message}
    (h : lookupMsg msgs id = some m) : id ∈ msgs.map Prod.fst := by
  induction msgs with
  | nil => simp [lookupMsg] at h
  | cons e rest ih =>
    obtain ⟨k, m'⟩ := e
    by_cases hk : k = id
    · simp [hk]
    · simp only [lookupMsg, beq_iff_eq, hk, if_false] at h
      simp [ih h]

theorem lookupMsg_mem {msgs : Msgs} {id : String} {m : Message}
    (h : lookupMsg msgs id = some m) : (id, m) ∈ msgs := by
  induction msgs with
  | nil => simp [lookupMsg] at h
  | cons e rest ih =>
    obtain ⟨k, m'⟩ := e
    by_cases hk : k = id
    · subst hk
      simp only [lookupMsg, beq_self_eq_true, if_true, Option.some.injEq] at h
      subst h
      simp
    · simp only [lookupMsg, beq_iff_eq, hk, if_false] at h
      simp [ih h]

theorem length_setMsg_fresh (msgs : Msgs) (k : String) (m : Message)
    (h : lookupMsg msgs k = none) : (setMsg msgs k m).length = msgs.length + 1 := by
  rw [setMsg_eq_append msgs k m h]; simp

/-! ### Properties of `splitFirstBranch` and `findBranch` -/

theorem splitFirstBranch_eq {bs : List Branch} {bid : String}
    {pre suf : List Branch} {b : Branch}
    (h : splitFirstBranch bs bid = some (pre, b, suf)) :
    bs = pre ++ b :: suf ∧ b.id = bid ∧ ∀ p ∈ pre, p.id ≠ bid := by
  induction bs generalizing pre with
  | nil => simp [splitFirstBranch] at h
  | cons hd tl ih =>
    by_cases hh : hd.id = bid
    · simp only [splitFirstBranch, beq_iff_eq, hh, if_true, Option.some.injEq] at h
      injection h with h1 h23
      injection h23 with h2 h3
      subst h1 h2 h3
      exact ⟨rfl, hh, by simp⟩
    · simp only [splitFirstBranch, beq_iff_eq, hh, if_false, Option.map_eq_some'] at h
      obtain ⟨⟨p', b', s'⟩, hsplit, heq⟩ := h
      injection heq with h1 h23
      injection h23 with h2 h3
      subst h1 h2 h3
      obtain ⟨hbs, hb, hpre⟩ := ih hsplit
      refine ⟨by simp [hbs], hb, ?_⟩
      intro p hp
      rcases List.mem_cons.mp hp with rfl | hp'
      · exact hh
      · exact hpre p hp'

theorem splitFirstBranch_none {bs : List Branch} {bid : String}
    (h : splitFirstBranch bs bid = none) : ∀ b ∈ bs, b.id ≠ bid := by
  induction bs with
  | nil => simp
  | cons hd tl ih =>
    by_cases hh : hd.id = bid
    · simp [splitFirstBranch, hh] at h
    · simp only [splitFirstBranch, beq_iff_eq, hh, if_false, Option.map_eq_none'] at h
      intro b hb
      rcases List.mem_cons.mp hb with rfl | hb'
      · exact hh
      · exact ih h b hb'

theorem splitFirstBranch_append_right {bs bs' : List Branch} {bid : String}
    (h : ∀ b ∈ bs, b.id ≠ bid) :
    splitFirstBranch (bs ++ bs') bid =
      (splitFirstBranch bs' bid).map (fun pbs => (bs ++ pbs.1, pbs.2.1, pbs.2.2)) := by
  induction bs with
  | nil => simp
  | cons hd tl ih =>
    have hhd : hd.id ≠ bid := h hd (by simp)
    simp only [List.cons_append, splitFirstBranch, beq_iff_eq, hhd, if_false, List.append_eq]
    rw [ih (fun b hb => h b (by simp [hb]))]
    cases splitFirstBranch bs' bid <;> simp

theorem findBranch_eq_some {bs : List Branch} {bid : String} {b : Branch}
    (h : findBranch bs bid = some b) : b ∈ bs ∧ b.id = bid :=
  ⟨List.mem_of_find?_eq_some h, by simpa [beq_iff_eq] using List.find?_some h⟩

theorem findBranch_append_left {bs bs' : List Branch} {bid : String} {b : Branch}
    (h : findBranch bs bid = some b) : findBranch (bs ++ bs') bid = some b := by
  unfold findBranch at h ⊢
  rw [List.find?_append, h]; rfl

theorem findBranch_append_right {bs bs' : List Branch} {bid : String}
    (h : ∀ b ∈ bs, b.id ≠ bid) :
    findBranch (bs ++ bs') bid = findBranch bs' bid := by
  unfold findBranch
  rw [List.find?_append]
  have : bs.find? (fun b => b.id == bid) = none :=
    List.find?_eq_none.mpr (by intro x hx; simpa [beq_iff_eq] using h x hx)
  rw [this        ]
  rfl

theorem nodup_get?_inj {l : List String} (hnd : l.Nodup) {i j : Nat} {x : String}
    (hi : l.get? i = some x) (hj : l.get? j = some x) : i = j := by
  obtain ⟨hi', hgi⟩ := List.get?_eq_some.mp hi
  obtain ⟨hj', hgj⟩ := List.get?_eq_some.mp hj
  have : (⟨i, hi'⟩ : Fin l.length) = ⟨j, hj'⟩ :=
    (List.Nodup.get_inj_iff hnd).mp (by rw [hgi, hgj])
  exact Fin.mk_eq_mk.mp this

theorem jsIndexOf_first {l : List String} {x : String} {k : Nat}
    (hget : l.get? k = some x) (hfirst : ∀ j, j < k → l.get? j ≠ some x) :
    jsIndexOf l x = (k : Int) := by
  induction l generalizing k with
  | nil => simp at hget
  | cons h t ih =>
    by_cases hh : h = x
    · have hk : k = 0 := by
        by_contra hk0
        exact hfirst 0 (Nat.pos_of_ne_zero hk0) (by simp [hh])
      subst hk
      simp [jsIndexOf, beq_iff_eq, hh]
    · cases k with
      | zero =>
        simp only [List.get?, Option.some.injEq] at hget
        exact absurd hget hh
      | succ k' =>
        simp only [List.get?] at hget
        have := ih hget (fun j hj hq => hfirst (j + 1) (by omega) (by simpa using hq))
        simp only [jsIndexOf, beq_iff_eq, hh, if_false, this]
        have hge : ((k' : Int)) ≠ -1 := by omega
        rw [if_neg hge]
        omega

/-- In a duplicate-free list, `indexOf` returns the index of any occurrence. -/

theorem jsIndexOf_nodup {l : List String} {x : String} {k : Nat}
    (hnd : l.Nodup) (hget : l.get? k = some x) : jsIndexOf l x = (k : Int) := by
  refine jsIndexOf_first hget ?_
  intro j hj hq
  have := nodup_get?_inj hnd hq hget
  omega

theorem not_mem_drop_of_nodup {l : List String} {x : String} {k : Nat}
    (hnd : l.Nodup) (hget : l.get? k = some x) : x ∉ l.drop (k + 1) := by
  intro hmem
  obtain ⟨i, hi⟩ := List.get?_of_mem hmem
  rw [List.get?_drop] at hi
  have := nodup_get?_inj hnd hi hget
  omega

theorem mem_take_not_mem_drop {l : List String} {x : String} {k : Nat}
    (hnd : l.Nodup) (hmem : x ∈ l.take (k + 1)) : x ∉ l.drop (k + 1) := by
  intro hmem2
  obtain ⟨i, hi⟩ := List.get?_of_mem hmem
  obtain ⟨j, hj⟩ := List.get?_of_mem hmem2
  have hilt : i < k + 1 := by
    have := (List.get?_eq_some.mp hi).1
    rw [List.length_take] at this
    omega
  rw [List.get?_take hilt] at hi
  rw [List.get?_drop] at hj
  have := nodup_get?_inj hnd hi hj
  omega

theorem PathTo.walkTo {msgs : Msgs} {oid : Option String} {l : List String}
    (h : PathTo msgs oid l) : WalkTo msgs oid l := by
  induction h with
  | root => exact WalkTo.root
  | step id m l hm _ ih => exact WalkTo.step id m l hm ih

theorem walkTo_det {msgs : Msgs} {oid : Option String} {l1 l2 : List String}
    (h1 : WalkTo msgs oid l1) (h2 : WalkTo msgs oid l2) : l1 = l2 := by
  induction h1 generalizing l2 with
  | root => cases h2; rfl
  | missing id hnone =>
    cases h2 with
    | missing _ _ => rfl
    | step _ m _ hsome _ => rw [hnone] at hsome; cases hsome
  | step id m l hsome _ ih =>
    cases h2 with
    | missing _ hnone => rw [hnone] at hsome; cases hsome
    | step _ m' l' hsome' hw' =>
      rw [hsome] at hsome'
      injection hsome' with hm
      subst hm
      rw [ih hw']

theorem pathTo_mem_isSome {msgs : Msgs} {oid : Option String} {l : List String}
    (h : PathTo msgs oid l) : ∀ x ∈ l, (lookupMsg msgs x).isSome := by
  induction h with
  | root => simp
  | step id m l hm _ ih =>
    intro x hx
    rcases List.mem_append.mp hx with hx' | hx'
    · exact ih x hx'
    · rw [List.mem_singleton.mp hx', hm]; rfl

theorem walkTo_mem_or {msgs : Msgs} {oid : Option String} {l : List String}
    (h : WalkTo msgs oid l) : ∀ x ∈ l, (lookupMsg msgs x).isSome ∨ l.head? = some x := by
  induction h with
  | root => simp
  | missing id _ => intro x hx; right; rw [List.mem_singleton.mp hx]; rfl
  | step id m l hm _ ih =>
    intro x hx
    rcases List.mem_append.mp hx with hx' | hx'
    · rcases ih x hx' with hs | hh
      · exact Or.inl hs
      · right
        cases l with
        | nil => simp at hh
        | cons a t => simpa using hh
    · left; rw [List.mem_singleton.mp hx', hm]; rfl

theorem walkTo_mem_source {msgs : Msgs} {oid : Option String} {l : List String}
    (h : WalkTo msgs oid l) :
    ∀ x ∈ l, some x = oid ∨ ∃ e ∈ msgs, e.2.parentId = some x := by
  induction h with
  | root => simp
  | missing id _ => intro x hx; left; rw [List.mem_singleton.mp hx]
  | step id m l hm _ ih =>
    intro x hx
    rcases List.mem_append.mp hx with hx' | hx'
    · rcases ih x hx' with hp | hsrc
      · exact Or.inr ⟨(id, m), lookupMsg_mem hm, by rw [← hp]⟩
      · exact Or.inr hsrc
    · left; rw [List.mem_singleton.mp hx']

theorem walkTo_take {msgs : Msgs} {oid : Option String} {l : List String}
    (h : WalkTo msgs oid l) :
    ∀ x ∈ l, ∃ k, l.get? k = some x ∧ WalkTo msgs (some x) (l.take (k + 1)) := by
  induction h with
  | root => simp
  | missing id hnone =>
    intro x hx
    rw [List.mem_singleton.mp hx]
    exact ⟨0, rfl, WalkTo.missing id hnone⟩
  | step id m l hm hw ih =>
    intro x hx
    rcases List.mem_append.mp hx with hx' | hx'
    · obtain ⟨k, hget, hwk⟩ := ih x hx'
      have hk : k < l.length := by
        by_contra hk
        rw [List.get?_eq_none.mpr (Nat.le_of_not_lt hk)] at hget
        cases hget
      refine ⟨k, ?_, ?_⟩
      · rw [List.get?_append hk, hget]
      · rw [List.take_append_of_le_length hk]
        exact hwk
    · rw [List.mem_singleton.mp hx']
      refine ⟨l.length, List.get?_concat_length l id, ?_⟩
      rw [List.take_of_length_le (by simp)]
      exact WalkTo.step id m l hm hw

theorem walkTo_nodup {msgs : Msgs} {oid : Option String} {l : List String}
    (h : WalkTo msgs oid l) : l.Nodup := by
  induction h with
  | root => simp
  | missing id _ => simp
  | step id m l hm hw ih =>
    have hid : id ∉ l := by
      intro hmem
      obtain ⟨k, hget, hwk⟩ := walkTo_take hw id hmem
      have hk : k < l.length := by
        by_contra hk
        rw [List.get?_eq_none.mpr (Nat.le_of_not_lt hk)] at hget
        cases hget
      have hdet := walkTo_det hwk (WalkTo.step id m l hm hw)
      have hlen : (l.take (k + 1)).length = k + 1 := by
        rw [List.length_take]; omega
      rw [hdet] at hlen
      simp at hlen
      omega
    simp [List.nodup_append, ih, hid]

theorem walkTo_length {msgs : Msgs} {oid : Option String} {l : List String}
    (h : WalkTo msgs oid l) : l.length ≤ msgs.length + 1 := by
  cases l with
  | nil => simp
  | cons a t =>
    have hnd := walkTo_nodup h
    have hsub : t ⊆ msgs.map Prod.fst := by
      intro x hx
      rcases walkTo_mem_or h x (by simp [hx]) with hs | hh
      · obtain ⟨v, hv⟩ := Option.isSome_iff_exists.mp hs
        exact lookupMsg_mem_keys hv
      · simp only [List.head?] at hh
        injection hh with hh
        subst hh
        exact absurd hx (List.nodup_cons.mp hnd).1
    have := (List.subperm_of_subset (List.nodup_cons.mp hnd).2 hsub).length_le
    simp only [List.length_map] at this
    simpa using Nat.succ_le_succ this

theorem pathTo_length {msgs : Msgs} {oid : Option String} {l : List String}
    (h : PathTo msgs oid l) : l.length ≤ msgs.length := by
  have hsub : l ⊆ msgs.map Prod.fst := by
    intro x hx
    obtain ⟨v, hv⟩ := Option.isSome_iff_exists.mp (pathTo_mem_isSome h x hx)
    exact lookupMsg_mem_keys hv
  have := (List.subperm_of_subset (walkTo_nodup h.walkTo) hsub).length_le
  simpa using this

theorem walkTo_pathIds {msgs : Msgs} {oid : Option String} {l : List String}
    (h : WalkTo msgs oid l) : ∀ f, l.length ≤ f → pathIds msgs f oid = l := by
  induction h with
  | root => intro f _; cases f <;> rfl
  | missing id hnone =>
    intro f hf
    cases f with
    | zero => simp at hf
    | succ f' => simp [pathIds, hnone]
  | step id m l hm _ ih =>
    intro f hf
    cases f with
    | zero => simp at hf
    | succ f' =>
      simp only [pathIds, hm]
      rw [ih f' (by simp at hf; omega)]

theorem walkTo_getMessagePathM {msgs : Msgs} {id : String} {l : List String}
    (h : WalkTo msgs (some id) l) (hs : (lookupMsg msgs id).isSome) :
    getMessagePathM msgs (some id) = l := by
  rw [getMessagePathM, if_pos hs]
  exact walkTo_pathIds h (msgs.length + 1) (walkTo_length h)

theorem pathTo_getMessagePathM {msgs : Msgs} {oid : Option String} {l : List String}
    (h : PathTo msgs oid l) : getMessagePathM msgs oid = l := by
  cases h with
  | root => rfl
  | step id m l' hm hp =>
    exact walkTo_getMessagePathM (PathTo.step id m l' hm hp).walkTo (by rw [hm]; rfl)

/-! ### Stability of walks under map updates -/

theorem walkTo_eraseMsg {msgs : Msgs} {oid : Option String} {l : List String} {x : String}
    (hx : x ∉ l) (h : WalkTo msgs oid l) : WalkTo (eraseMsg msgs x) oid l := by
  induction h with
  | root => exact WalkTo.root
  | missing id hnone =>
    refine WalkTo.missing id ?_
    rw [lookupMsg_eraseMsg]
    by_cases hix : id = x <;> simp [hix, hnone]
  | step id m l hm hw ih =>
    have hidx : id ≠ x := fun he => hx (by simp [he])
    refine WalkTo.step id m l ?_ (ih fun hmem => hx (by simp [hmem]))
    rw [lookupMsg_eraseMsg, if_neg hidx]
    exact hm

theorem pathTo_eraseMsg {msgs : Msgs} {oid : Option String} {l : List String} {x : String}
    (hx : x ∉ l) (h : PathTo msgs oid l) : PathTo (eraseMsg msgs x) oid l := by
  induction h with
  | root => exact PathTo.root
  | step id m l hm hp ih =>
    have hidx : id ≠ x := fun he => hx (by simp [he])
    refine PathTo.step id m l ?_ (ih fun hmem => hx (by simp [hmem]))
    rw [lookupMsg_eraseMsg, if_neg hidx]
    exact hm

theorem walkTo_append {msgs l' : Msgs} {oid : Option String} {l : List String}
    (hk : ∀ e ∈ l', e.1 ∉ l) (h : WalkTo msgs oid l) : WalkTo (msgs ++ l') oid l := by
  induction h with
  | root => exact WalkTo.root
  | missing id hnone =>
    refine WalkTo.missing id ?_
    rw [lookupMsg_append, hnone]
    induction l' with
    | nil => rfl
    | cons e rest ih =>
      have h1 : e.1 ≠ id := fun he => hk e (by simp) (by simp [he])
      obtain ⟨k, m⟩ := e
      simp only [lookupMsg, beq_iff_eq]
      rw [if_neg h1]
      exact ih fun e' he' hm => hk e' (by simp [he']) hm
  | step id m l hm hw ih =>
    refine WalkTo.step id m l ?_ (ih fun e he hmem => hk e he (by simp [hmem]))
    rw [lookupMsg_append, hm]

theorem pathTo_append {msgs l' : Msgs} {oid : Option String} {l : List String}
    (h : PathTo msgs oid l) : PathTo (msgs ++ l') oid l := by
  induction h with
  | root => exact PathTo.root
  | step id m l hm _ ih =>
    refine PathTo.step id m l ?_ ih
    rw [lookupMsg_append, hm]

theorem pathTo_setMsg {msgs : Msgs} {oid : Option String} {l : List String}
    {k : String} {m : Message} (hfresh : lookupMsg msgs k = none)
    (h : PathTo msgs oid l) : PathTo (setMsg msgs k m) oid l := by
  rw [setMsg_eq_append msgs k m hfresh]
  exact pathTo_append h

theorem chainTo_setMsg {msgs : Msgs} {oid : Option String} {k : String} {m : Message}
    (hfresh : lookupMsg msgs k = none) (h : ChainTo msgs oid) :
    ChainTo (setMsg msgs k m) oid := by
  obtain ⟨l, hl⟩ := h
  exact ⟨l, pathTo_setMsg hfresh hl⟩

theorem chainTo_of_resolvesFuel {msgs : Msgs} {f : Nat} {oid : Option String}
    (h : chainResolvesFuel msgs f oid = true) : ChainTo msgs oid := by
  induction f generalizing oid with
  | zero =>
    cases oid with
    | none => exact ⟨[], PathTo.root⟩
    | some id => simp [chainResolvesFuel] at h
  | succ f ih =>
    cases oid with
    | none => exact ⟨[], PathTo.root⟩
    | some id =>
      simp only [chainResolvesFuel] at h
      cases hm : lookupMsg msgs id with
      | none => rw [hm] at h; cases h
      | some m =>
        rw [hm] at h
        obtain ⟨l, hl⟩ := ih h
        exact ⟨l ++ [id], PathTo.step id m l hm hl⟩

theorem chainTo_of_resolves {msgs : Msgs} {oid : Option String}
    (h : chainResolves msgs oid = true) : ChainTo msgs oid :=
  chainTo_of_resolvesFuel h

theorem resolvesFuel_of_pathTo {msgs : Msgs} {oid : Option String} {l : List String}
    (h : PathTo msgs oid l) : ∀ f, l.length ≤ f → chainResolvesFuel msgs f oid = true := by
  induction h with
  | root => intro f _; cases f <;> rfl
  | step id m l hm _ ih =>
    intro f hf
    cases f with
    | zero => simp at hf
    | succ f' =>
      simp only [chainResolvesFuel, hm]
      exact ih f' (by simp at hf; omega)

theorem resolves_of_chainTo {msgs : Msgs} {oid : Option String}
    (h : ChainTo msgs oid) : chainResolves msgs oid = true := by
  obtain ⟨l, hl⟩ := h
  exact resolvesFuel_of_pathTo hl (msgs.length + 1)
    (Nat.le_succ_of_le (pathTo_length hl))

/-! ### C7: deleting the main branch always fails and mutates nothing -/

/-- C7: `deleteBranch` on the reserved id `branch-main` returns an error
result — whether or not such a branch exists, and for either value of
`deleteMessages` — and, being an error, produces no new chat state: the
document is only rewritten on the success path, so every branch and message
of the chat is retained. -/

theorem deleteBranch_main_always_error (c : Chat) (deleteMessages : Bool) (now : String) :
    ∃ e, deleteBranch c "branch-main" deleteMessages now = Except.error e := by
  cases hsplit : splitFirstBranch c.branches "branch-main" with
  | none =>
    exact ⟨"Branch \"branch-main\" not found", by simp [deleteBranch, hsplit]⟩
  | some pbs =>
    obtain ⟨pre, b, suf⟩ := pbs
    have hb : b.id = "branch-main" := (splitFirstBranch_eq hsplit).2.1
    exact ⟨"Cannot delete the main branch", by simp [deleteBranch, hsplit, hb]⟩

/-! ### C9: migration is idempotent at the current schema version -/

/-- C9: a chat whose `schemaVersion` already equals the current version (2) is
returned by `migrateToTreeStructure` structurally unchanged, whatever ids the
generator would produce. -/

theorem migrate_idempotent (fresh : Nat → String) (c : Chat)
    (h : c.schemaVersion = CURRENT_SCHEMA_VERSION) :
    migrateToTreeStructure fresh (.v2 c) = some (.v2 c) := by
  simp [migrateToTreeStructure, h]

/-- Witness for C9 at a concrete chat. -/

theorem migrate_idempotent_witness :
    (createChat "c" "tpl" none none "t0" "d0").schemaVersion = CURRENT_SCHEMA_VERSION ∧
      migrateToTreeStructure (fun i => toString i) (.v2 (createChat "c" "tpl" none none "t0" "d0")) =
        some (.v2 (createChat "c" "tpl" none none "t0" "d0")) :=
  ⟨rfl, migrate_idempotent (fun i => toString i) (createChat "c" "tpl" none none "t0" "d0") rfl⟩

/-! ### C10: clearing messages resets the branch list to a single main branch -/

/-- C10: for any chat, `clearMessages` empties the message map and replaces
the whole branch list by one fresh main branch (id `branch-main`, name
`Main`, no fork point, `null` tip, active), with `activeBranchId` set to
`branch-main` — every non-main branch is thereby deleted. -/

theorem clearMessages_resets (c : Chat) (now : String) :
    (clearMessages c now).messages = [] ∧
    (clearMessages c now).branches =
      [{ id := "branch-main", name := "Main", createdAt := c.createdAt,
         forkPointMessageId := none, tipMessageId := none, isActive := true }] ∧
    (clearMessages c now).activeBranchId = "branch-main" :=
  ⟨rfl, rfl, rfl⟩

/-! ### C5: sequential appends chain through the active branch tip -/

/-- C5: on a freshly created chat, two `addMessage` calls with no
`parentId`/`branchId` options (roles `user` then `assistant`) produce a second
message whose `parentId` is the first message's id, and leave the main
branch's `tipMessageId` equal to the second message's id: the first call uses
the main branch's null tip (a root), advances the tip to the new id, and the
second call uses that tip as parent. -/

theorem addMessage_sequential_chain
    (id templateId : String) (title providerOverride : Option String)
    (now dateStr : String) (u a : NewMessage)
    (_hu : u.role = "user") (_ha : a.role = "assistant")
    (m1id m2id now1 now2 : String) (msg1 msg2 : Message) (c1 c2 : Chat)
    (h1 : addMessage (createChat id templateId title providerOverride now dateStr)
      u {} m1id now1 = .ok (msg1, c1))
    (h2 : addMessage c1 a {} m2id now2 = .ok (msg2, c2)) :
    msg2.parentId = some msg1.id ∧
    ∃ mb, findBranch c2.branches "branch-main" = some mb ∧
      mb.tipMessageId = some msg2.id := by
  simp only [addMessage, createChat, splitFirstBranch, beq_self_eq_true, if_true,
    Option.getD_none, setMsg, List.nil_append, Except.ok.injEq, Prod.mk.injEq] at h1
  obtain ⟨hmsg1, hc1⟩ := h1
  subst hc1
  simp only [addMessage, splitFirstBranch, beq_self_eq_true, if_true,
    Option.getD_none, setMsg, beq_iff_eq, List.nil_append,
    Except.ok.injEq, Prod.mk.injEq] at h2
  by_cases hm : m1id = m2id
  · subst hm
    simp only [if_true] at h2
    obtain ⟨hmsg2, hc2⟩ := h2
    subst hc2
    refine ⟨?_, ⟨_, rfl, ?_⟩⟩
    · rw [← hmsg2, ← hmsg1]
    · rw [← hmsg2]
  · simp only [hm, if_false] at h2
    obtain ⟨hmsg2, hc2⟩ := h2
    subst hc2
    refine ⟨?_, ⟨_, rfl, ?_⟩⟩
    · rw [← hmsg2, ← hmsg1]
    · rw [← hmsg2]

/-- Witness for C5 at concrete inputs. -/

theorem addMessage_sequential_chain_witness :
    ∃ msg1 msg2 c1 c2,
      (addMessage (createChat "c" "tpl" none none "t0" "d0")
          ⟨"user", "hello"⟩ {} "m1" "t1" = .ok (msg1, c1) ∧
        addMessage c1 ⟨"assistant", "hi"⟩ {} "m2" "t2" = .ok (msg2, c2)) ∧
      msg2.parentId = some msg1.id ∧
      ∃ mb, findBranch c2.branches "branch-main" = some mb ∧
        mb.tipMessageId = some msg2.id := by
  refine ⟨_, _, _, _, ⟨rfl, rfl⟩, ?_⟩
  exact addMessage_sequential_chain "c" "tpl" none none "t0" "d0"
    ⟨"user", "hello"⟩ ⟨"assistant", "hi"⟩ rfl rfl "m1" "m2" "t1" "t2"
    _ _ _ _ rfl rfl

/-! ### C8: `getMessagePath` walks to a root, truncating at missing parents -/

/-- C8 counterexample: the returned path does not contain only resolving ids.
In `cDangling`, message `m2` is present but its parent `m1` is not; the loop
still visits and records `m1` before stopping, so the returned list is
`["m1", "m2"]`, whose first element does not resolve in the message map. -/

theorem getMessagePath_truncation_counterexample :
    ¬ (∀ (c : Chat) (mid : String), (lookupMsg c.messages mid).isSome →
        ∀ x ∈ getMessagePath c (some mid), (lookupMsg c.messages x).isSome) := by
  intro h
  have hm : ("m1" : String) ∈ getMessagePath cDangling (some "m2") := by decide
  have := h cDangling "m2" (by decide) "m1" hm
  exact absurd this (by decide)

/-- C8 (amended): for every chat and every `messageId` present in its message
map, whenever the parent-link walk from `messageId` terminates with visited
list `l` (root-to-target order), `getMessagePath` returns exactly `l`, whose
last element is the target; no error is raised on a missing ancestor — the
walk stops there silently — but the missing ancestor id itself is recorded as
the first element of the result, so only the ids after the first are
guaranteed to resolve. -/

theorem getMessagePath_walk (c : Chat) (mid : String) (l : List String)
    (hpresent : (lookupMsg c.messages mid).isSome)
    (hw : WalkTo c.messages (some mid) l) :
    getMessagePath c (some mid) = l ∧
    l.getLast? = some mid ∧
    ∀ x ∈ l.drop 1, (lookupMsg c.messages x).isSome := by
  refine ⟨walkTo_getMessagePathM hw hpresent, ?_, ?_⟩
  · cases hw with
    | missing _ _ => rfl
    | step id m l' hm hw' => simp
  · intro x hx
    have hxl : x ∈ l := List.mem_of_mem_drop hx
    rcases walkTo_mem_or hw x hxl with hs | hh
    · exact hs
    · exfalso
      cases l with
      | nil => simp at hx
      | cons hd tl =>
        simp only [List.head?, Option.some.injEq] at hh
        subst hh
        simp only [List.drop_one, List.tail] at hx
        exact (List.nodup_cons.mp (walkTo_nodup hw)).1 hx

/-- Witness for C8 at a concrete chat with a dangling parent. -/

theorem getMessagePath_walk_witness :
    getMessagePath cDangling (some "m2") = ["m1", "m2"] ∧
    (["m1", "m2"] : List String).getLast? = some "m2" ∧
    ∀ x ∈ (["m1", "m2"] : List String).drop 1, (lookupMsg cDangling.messages x).isSome :=
  getMessagePath_walk cDangling "m2" ["m1", "m2"] (by decide)
    (WalkTo.step "m2"
      { id := "m2", parentId := some "m1", role := "user", content := "x", timestamp := "t" }
      ["m1"] (by decide) (WalkTo.missing "m1" (by decide)))

/-! ### C6: the v1-to-v2 migration builds a strictly linear chain -/

theorem length_linChain (fresh : Nat → String) (ms : List MessageV1) :
    ∀ (k : Nat) (prev : Option String), (linChain fresh ms k prev).length = ms.length := by
  induction ms with
  | nil => intro k prev; rfl
  | cons m rest ih => intro k prev; simp [linChain, ih]

theorem migrateMsgs_eq (fresh : Nat → String) (ms : List MessageV1) :
    ∀ (k : Nat) (acc : Msgs) (prev : Option String),
      (∀ i, k ≤ i → i < k + ms.length → lookupMsg acc (fresh i) = none) →
      (∀ i j, k ≤ i → k ≤ j → i < k + ms.length → j < k + ms.length →
        fresh i = fresh j → i = j) →
      migrateMsgs fresh ms k acc prev =
        (acc ++ linChain fresh ms k prev,
          if ms.isEmpty then prev else some (fresh (k + ms.length - 1))) := by
  induction ms with
  | nil => intro k acc prev _ _; simp [migrateMsgs, linChain]
  | cons m rest ih =>
    intro k acc prev hfr hinj
    have hset : setMsg acc (fresh k) (migNode (fresh k) prev m) =
        acc ++ [(fresh k, migNode (fresh k) prev m)] :=
      setMsg_eq_append _ _ _ (hfr k (Nat.le_refl k) (by simp))
    have hfr' : ∀ i, k + 1 ≤ i → i < (k + 1) + rest.length →
        lookupMsg (acc ++ [(fresh k, migNode (fresh k) prev m)]) (fresh i) = none := by
      intro i hi1 hi2
      rw [lookupMsg_append, hfr i (by omega) (by simp; omega)]
      have hne : fresh k ≠ fresh i := by
        intro he
        have := hinj k i (Nat.le_refl k) (by omega) (by simp) (by simp; omega) he
        omega
      simp [lookupMsg, beq_iff_eq, hne]
    have hinj' : ∀ i j, k + 1 ≤ i → k + 1 ≤ j → i < (k + 1) + rest.length →
        j < (k + 1) + rest.length → fresh i = fresh j → i = j := by
      intro i j hi hj hi2 hj2 he
      exact hinj i j (by omega) (by omega) (by simp; omega) (by simp; omega) he
    show migrateMsgs fresh rest (k + 1)
        (setMsg acc (fresh k) (migNode (fresh k) prev m)) (some (fresh k)) = _
    rw [hset, ih (k + 1) _ (some (fresh k)) hfr' hinj']
    cases rest with
    | nil => simp [linChain]
    | cons m2 rest2 =>
      simp only [linChain, Prod.mk.injEq, List.isEmpty_cons, Bool.false_eq_true,
        if_false, List.length_cons]
      refine ⟨by simp, ?_⟩
      congr 2
      omega

theorem get?_linChain (fresh : Nat → String) (ms : List MessageV1) :
    ∀ (k : Nat) (prev : Option String) (i : Nat) (mv : MessageV1),
      ms.get? i = some mv →
      (linChain fresh ms k prev).get? i =
        some (fresh (k + i),
          migNode (fresh (k + i)) (if i = 0 then prev else some (fresh (k + i - 1))) mv) := by
  induction ms with
  | nil => intro k prev i mv h; simp at h
  | cons m rest ih =>
    intro k prev i mv h
    cases i with
    | zero =>
      simp only [List.get?] at h
      injection h with h
      subst h
      simp [linChain]
    | succ i' =>
      simp only [List.get?] at h
      have := ih (k + 1) (some (fresh k)) i' mv h
      simp only [linChain, List.get?]
      rw [this]
      by_cases hi : i' = 0
      · subst hi
        simp
      · have e1 : k + 1 + i' = k + (i' + 1) := by omega
        have e2 : k + 1 + i' - 1 = k + (i' + 1) - 1 := by omega
        simp only [hi, if_false, Nat.succ_ne_zero, e1, e2]

theorem lookupMsg_linChain (fresh : Nat → String) (ms : List MessageV1) :
    ∀ (k : Nat) (prev : Option String) (i : Nat) (mv : MessageV1),
      (∀ i' j, k ≤ i' → k ≤ j → i' < k + ms.length → j < k + ms.length →
        fresh i' = fresh j → i' = j) →
      ms.get? i = some mv →
      lookupMsg (linChain fresh ms k prev) (fresh (k + i)) =
        some (migNode (fresh (k + i))
          (if i = 0 then prev else some (fresh (k + i - 1))) mv) := by
  induction ms with
  | nil => intro k prev i mv _ h; simp at h
  | cons m rest ih =>
    intro k prev i mv hinj h
    cases i with
    | zero =>
      simp only [List.get?] at h
      injection h with h
      subst h
      simp [linChain, lookupMsg]
    | succ i' =>
      simp only [List.get?] at h
      have hlt : i' < rest.length := by
        by_contra hge
        rw [List.get?_eq_none.mpr (Nat.le_of_not_lt hge)] at h
        cases h
      have hne : fresh k ≠ fresh (k + (i' + 1)) := by
        intro he
        have := hinj k (k + (i' + 1)) (Nat.le_refl k) (by omega) (by simp)
          (by simp; omega) he
        omega
      simp only [linChain, lookupMsg, beq_iff_eq, hne, if_false]
      have e1 : k + (i' + 1) = (k + 1) + i' := by omega
      rw [e1]
      have := ih (k + 1) (some (fresh k)) i' mv
        (by
          intro a b ha hb ha2 hb2 he
          exact hinj a b (by omega) (by omega) (by simp; omega) (by simp; omega) he)
        h
      rw [this]
      by_cases hi : i' = 0
      · subst hi
        simp
      · have e2 : (k + 1) + i' - 1 = k + (i' + 1) - 1 := by omega
        have e3 : (k + 1) + i' = k + (i' + 1) := by omega
        simp only [hi, if_false, Nat.succ_ne_zero, e2, e3]

theorem pathTo_linChain (fresh : Nat → String) (ms : List MessageV1)
    (hinj : ∀ i j, i < ms.length → j < ms.length → fresh i = fresh j → i = j) :
    ∀ i, i < ms.length → ChainTo (linChain fresh ms 0 none) (some (fresh i)) := by
  intro i
  induction i using Nat.strong_induction_on with
  | _ i ih =>
    intro hi
    obtain ⟨mv, hmv⟩ : ∃ mv, ms.get? i = some mv := by
      cases h : ms.get? i with
      | none => rw [List.get?_eq_none] at h; omega
      | some mv => exact ⟨mv, rfl⟩
    have hlook := lookupMsg_linChain fresh ms 0 none i mv
      (by intro a b _ _ ha hb he; exact hinj a b (by omega) (by omega) he) hmv
    simp only [Nat.zero_add] at hlook
    by_cases hz : i = 0
    · subst hz
      refine ⟨[fresh 0], PathTo.step (fresh 0) _ [] hlook ?_⟩
      show PathTo _ (if 0 = 0 then none else some (fresh (0 - 1))) []
      simp only [if_pos rfl]
      exact PathTo.root
    · obtain ⟨l, hl⟩ := ih (i - 1) (by omega) (by omega)
      refine ⟨l ++ [fresh i], PathTo.step (fresh i) _ l hlook ?_⟩
      show PathTo _ (if i = 0 then none else some (fresh (i - 1))) l
      simp only [hz, if_false]
      exact hl

/-- C6: migrating a v1 chat whose messages array has `n` elements (with the
`n` generated ids pairwise distinct) yields a schema-2 chat whose message map
has exactly `n` entries in the original array order — entry `i` carries the
`i`-th array element's role/content/timestamp, with `parentId` the `(i-1)`-th
fresh id and `null` for the first — and exactly one branch, `branch-main`,
with no fork point, tip the last fresh id (`null` when `n = 0`), active, and
equal to `activeBranchId`. -/

theorem migrate_v1_linear (fresh : Nat → String) (v1 : ChatV1)
    (hids : ((List.range v1.messages.length).map fresh).Nodup) :
    ∃ c', migrateToTreeStructure fresh (.v1 v1) = some (.v2 c') ∧
      c'.schemaVersion = 2 ∧
      c'.messages.length = v1.messages.length ∧
      (∀ i mv, v1.messages.get? i = some mv →
        c'.messages.get? i = some (fresh i,
          migNode (fresh i) (if i = 0 then none else some (fresh (i - 1))) mv)) ∧
      c'.branches = [{ id := "branch-main", name := "Main", createdAt := v1.createdAt,
                       forkPointMessageId := none,
                       tipMessageId := if v1.messages.length = 0 then none
                         else some (fresh (v1.messages.length - 1)),
                       isActive := true }] ∧
      c'.activeBranchId = "branch-main" := by
  have hinj : ∀ i j, i < v1.messages.length → j < v1.messages.length →
      fresh i = fresh j → i = j := by
    intro i j hi hj he
    have h1 : ((List.range v1.messages.length).map fresh).get
        ⟨i, by simpa using hi⟩ = fresh i := by simp
    have h2 : ((List.range v1.messages.length).map fresh).get
        ⟨j, by simpa using hj⟩ = fresh j := by simp
    have := (List.Nodup.get_inj_iff hids
      (i := ⟨i, by simpa using hi⟩) (j := ⟨j, by simpa using hj⟩)).mp
      (by rw [h1, h2, he])
    exact Fin.mk_eq_mk.mp this
  have hm := migrateMsgs_eq fresh v1.messages 0 [] none
    (by intro i _ _; rfl)
    (by intro i j _ _ hi hj he; exact hinj i j (by omega) (by omega) he)
  have htip : (if v1.messages.isEmpty = true then (none : Option String)
        else some (fresh (0 + v1.messages.length - 1))) =
      (if v1.messages.length = 0 then none else some (fresh (v1.messages.length - 1))) := by
    cases v1.messages <;> simp
  refine ⟨{ schemaVersion := CURRENT_SCHEMA_VERSION, id := v1.id,
            templateId := v1.templateId, title := v1.title,
            createdAt := v1.createdAt, updatedAt := v1.updatedAt,
            providerOverride := v1.providerOverride,
            messages := linChain fresh v1.messages 0 none,
            branches := [{ id := "branch-main", name := "Main",
                           createdAt := v1.createdAt, forkPointMessageId := none,
                           tipMessageId := if v1.messages.length = 0 then none
                             else some (fresh (v1.messages.length - 1)),
                           isActive := true }],
            activeBranchId := "branch-main" }, ?_, rfl, ?_, ?_, rfl, rfl⟩
  · simp only [migrateToTreeStructure]
    rw [hm]
    simp only [List.nil_append, htip]
  · simp [length_linChain]
  · intro i mv hmv
    have := get?_linChain fresh v1.messages 0 none i mv hmv
    simpa using this

/-- Witness for C6 at a concrete two-message v1 chat. -/

theorem migrate_v1_linear_witness :
    ∃ c', migrateToTreeStructure freshW (.v1 v1W) = some (.v2 c') ∧
      c'.schemaVersion = 2 ∧
      c'.messages.length = v1W.messages.length ∧
      (∀ i mv, v1W.messages.get? i = some mv →
        c'.messages.get? i = some (freshW i,
          migNode (freshW i) (if i = 0 then none else some (freshW (i - 1))) mv)) ∧
      c'.branches = [{ id := "branch-main", name := "Main", createdAt := v1W.createdAt,
                       forkPointMessageId := none,
                       tipMessageId := if v1W.messages.length = 0 then none
                         else some (freshW (v1W.messages.length - 1)),
                       isActive := true }] ∧
      c'.activeBranchId = "branch-main" :=
  migrate_v1_linear freshW v1W (by decide)

/-! ### C4: a fork shares history and grows independently -/

theorem getBranchMessages_eq {c : Chat} {bid : String} {b : Branch}
    (h : findBranch c.branches bid = some b) :
    getBranchMessages c bid =
      (getMessagePathM c.messages b.tipMessageId).map (lookupMsg c.messages) := by
  unfold getBranchMessages getMessagePath
  rw [h]

theorem pathTo_some_inv {msgs : Msgs} {id : String} {L : List String}
    (h : PathTo msgs (some id) L) :
    ∃ m l, lookupMsg msgs id = some m ∧ PathTo msgs m.parentId l ∧ L = l ++ [id] := by
  cases h with
  | step _ m l hm hp => exact ⟨m, l, hm, hp, rfl⟩

theorem pathTo_nil_inv {msgs : Msgs} {oid : Option String} {L : List String}
    (h : PathTo msgs oid L) (hL : L = []) : oid = none := by
  cases h with
  | root => rfl
  | step id m l hm hp => simp at hL

theorem pathTo_singleton_inv {msgs : Msgs} {oid : Option String} {L : List String}
    {x : String} (h : PathTo msgs oid L) (hL : L = [x]) :
    oid = some x ∧ ∃ m, lookupMsg msgs x = some m ∧ m.parentId = none := by
  cases h with
  | root => simp at hL
  | step id m l hm hp =>
    have hlx : l = [] ∧ id = x := by
      cases l with
      | nil => simpa using hL
      | cons a t =>
        exfalso
        have := congrArg List.length hL
        simp at this
    obtain ⟨rfl, rfl⟩ := hlx
    exact ⟨rfl, m, hm, pathTo_nil_inv hp rfl⟩

theorem pathTo_pair_inv {msgs : Msgs} {oid : Option String} {L : List String}
    {x y : String} (h : PathTo msgs oid L) (hL : L = [x, y]) :
    oid = some y ∧
    ∃ my mx, lookupMsg msgs y = some my ∧ my.parentId = some x ∧
      lookupMsg msgs x = some mx ∧ mx.parentId = none := by
  cases h with
  | root => simp at hL
  | step idy my ly hmy hpy =>
    have hly : ly = [x] ∧ idy = y := by
      cases ly with
      | nil =>
        exfalso
        have := congrArg List.length hL
        simp at this
      | cons a t =>
        cases t with
        | nil =>
          simp only [List.cons_append, List.nil_append, List.cons.injEq] at hL
          obtain ⟨h1, h2, _⟩ := hL
          exact ⟨by rw [h1], h2⟩
        | cons b t2 =>
          exfalso
          have := congrArg List.length hL
          simp at this
    obtain ⟨rfl, rfl⟩ := hly
    obtain ⟨hpar, m2, hm2, hm2par⟩ := pathTo_singleton_inv hpy rfl
    exact ⟨rfl, my, m2, hmy, hpar, hm2, hm2par⟩

/-- C4: given a chat whose main branch's tip chain is exactly `msg1` (a root)
followed by `msg2`, a `createBranch` forking at `msg1` produces a branch whose
tip is initialised to `msg1.id` itself, and a subsequent `addMessage`
targeting that branch links the new message under `msg1` and advances only
the new branch's tip: the main branch record (hence its tip) is unchanged,
`getBranchMessages "branch-main"` still returns `[msg1, msg2]`,
`getBranchMessages` of the new branch returns `[msg1, newMsg]`, and no
pre-existing message is modified. -/

theorem createBranch_fork_isolated
    (c : Chat) (mb : Branch) (m1id m2id : String) (msg1 msg2 : Message)
    (nbid nmid nowB nowM : String) (nname : Option String) (u : NewMessage)
    (nb : Branch) (c1 : Chat) (nm : Message) (c2 : Chat)
    (hmb : findBranch c.branches "branch-main" = some mb)
    (hmbtip : mb.tipMessageId = some m2id)
    (hm1 : lookupMsg c.messages m1id = some msg1)
    (hm2 : lookupMsg c.messages m2id = some msg2)
    (hpath : PathTo c.messages (some m2id) [m1id, m2id])
    (hfreshB : ∀ b ∈ c.branches, b.id ≠ nbid)
    (hfreshM : lookupMsg c.messages nmid = none)
    (h1 : createBranch c { forkPointMessageId := some m1id, name := nname } nbid nowB
      = .ok (nb, c1))
    (h2 : addMessage c1 u { branchId := some nbid } nmid nowM = .ok (nm, c2)) :
    nb.tipMessageId = some m1id ∧
    getBranchMessages c "branch-main" = [some msg1, some msg2] ∧
    getBranchMessages c2 "branch-main" = [some msg1, some msg2] ∧
    getBranchMessages c2 nbid = [some msg1, some nm] ∧
    findBranch c2.branches "branch-main" = some mb ∧
    (∀ x, x ≠ nmid → lookupMsg c2.messages x = lookupMsg c.messages x) := by
  have hne1 : nmid ≠ m1id := fun he => by rw [← he] at hm1; rw [hm1] at hfreshM; cases hfreshM
  have hne2 : nmid ≠ m2id := fun he => by rw [← he] at hm2; rw [hm2] at hfreshM; cases hfreshM
  obtain ⟨_, ⟨my, mx, hmy, hpar2, hmx, hpar1⟩⟩ := pathTo_pair_inv hpath rfl
  have hmsg2par : msg2.parentId = some m1id := by
    rw [hm2] at hmy; injection hmy with h; rw [h]; exact hpar2
  have hmsg1par : msg1.parentId = none := by
    rw [hm1] at hmx; injection hmx with h; rw [h]; exact hpar1
  -- unpack the createBranch result
  simp only [createBranch, hm1, Option.isSome_some, if_true, Except.ok.injEq,
    Prod.mk.injEq] at h1
  obtain ⟨hnb, hc1⟩ := h1
  subst hc1
  -- unpack the addMessage result
  have hsplit : splitFirstBranch
      (c.branches ++ [{ id := nbid,
                        name := nname.getD ("Branch " ++ toString (c.branches.length + 1)),
                        createdAt := nowB, forkPointMessageId := some m1id,
                        tipMessageId := some m1id, isActive := false }]) nbid =
      some (c.branches,
        { id := nbid,
          name := nname.getD ("Branch " ++ toString (c.branches.length + 1)),
          createdAt := nowB, forkPointMessageId := some m1id,
          tipMessageId := some m1id, isActive := false }, []) := by
    rw [splitFirstBranch_append_right hfreshB]
    simp [splitFirstBranch]
  simp only [addMessage, Option.getD_some] at h2
  rw [hsplit] at h2
  simp only [Except.ok.injEq, Prod.mk.injEq] at h2
  obtain ⟨hnm, hc2⟩ := h2
  subst hc2
  have hpath2 : PathTo (setMsg c.messages nmid
      { id := nmid, parentId := some m1id, role := u.role,
        content := u.content, timestamp := nowM }) (some m2id) [m1id, m2id] :=
    pathTo_setMsg hfreshM hpath
  have hlook1 : lookupMsg (setMsg c.messages nmid
      { id := nmid, parentId := some m1id, role := u.role,
        content := u.content, timestamp := nowM }) m1id = some msg1 := by
    rw [lookupMsg_setMsg, if_neg hne1]; exact hm1
  have hlook2 : lookupMsg (setMsg c.messages nmid
      { id := nmid, parentId := some m1id, role := u.role,
        content := u.content, timestamp := nowM }) m2id = some msg2 := by
    rw [lookupMsg_setMsg, if_neg hne2]; exact hm2
  have hlookN : lookupMsg (setMsg c.messages nmid
      { id := nmid, parentId := some m1id, role := u.role,
        content := u.content, timestamp := nowM }) nmid =
      some { id := nmid, parentId := some m1id, role := u.role,
             content := u.content, timestamp := nowM } := by
    rw [lookupMsg_setMsg, if_pos rfl]
  refine ⟨by rw [← hnb], ?_, ?_, ?_, ?_, ?_⟩
  · rw [getBranchMessages_eq hmb, hmbtip, pathTo_getMessagePathM hpath]
    simp [hm1, hm2]
  · rw [getBranchMessages_eq (findBranch_append_left hmb), hmbtip]
    dsimp only
    rw [pathTo_getMessagePathM hpath2]
    simp [hlook1, hlook2]
  · have hfbN : findBranch
        (c.branches ++
          ({ id := nbid,
             name := nname.getD ("Branch " ++ toString (c.branches.length + 1)),
             createdAt := nowB, forkPointMessageId := some m1id,
             tipMessageId := some nmid, isActive := false } : Branch) :: []) nbid =
        some { id := nbid,
               name := nname.getD ("Branch " ++ toString (c.branches.length + 1)),
               createdAt := nowB, forkPointMessageId := some m1id,
               tipMessageId := some nmid, isActive := false } := by
      rw [findBranch_append_right hfreshB]
      simp [findBranch]
    rw [getBranchMessages_eq hfbN]
    dsimp only
    have hpathN : PathTo (setMsg c.messages nmid
        { id := nmid, parentId := some m1id, role := u.role,
          content := u.content, timestamp := nowM }) (some nmid) ([m1id] ++ [nmid]) := by
      refine PathTo.step nmid _ [m1id] hlookN ?_
      refine PathTo.step m1id msg1 [] hlook1 ?_
      rw [hmsg1par]
      exact PathTo.root
    rw [pathTo_getMessagePathM hpathN]
    simp only [List.map, List.cons_append, List.nil_append, hlook1, hlookN]
    rw [← hnm]
  · exact findBranch_append_left hmb
  · intro x hx
    dsimp only
    rw [lookupMsg_setMsg, if_neg (fun he => hx he.symm)]

/-- Witness for C4 at a concrete two-message chat. -/

theorem createBranch_fork_isolated_witness :
    ∃ nb c1 nm c2,
      (createBranch cW { forkPointMessageId := some "m1", name := none } "b1" "t3"
          = .ok (nb, c1) ∧
        addMessage c1 ⟨"user", "new"⟩ { branchId := some "b1" } "m3" "t4" = .ok (nm, c2)) ∧
      nb.tipMessageId = some "m1" ∧
      getBranchMessages cW "branch-main" = [some mW1, some mW2] ∧
      getBranchMessages c2 "branch-main" = [some mW1, some mW2] ∧
      getBranchMessages c2 "b1" = [some mW1, some nm] ∧
      findBranch c2.branches "branch-main" = some bWmain ∧
      (∀ x, x ≠ "m3" → lookupMsg c2.messages x = lookupMsg cW.messages x) := by
  refine ⟨_, _, _, _, ⟨rfl, rfl⟩, ?_⟩
  exact createBranch_fork_isolated cW bWmain "m1" "m2" mW1 mW2 "b1" "m3" "t3" "t4"
    none ⟨"user", "new"⟩ _ _ _ _ rfl rfl rfl rfl
    (PathTo.step "m2" mW2 ["m1"] rfl (PathTo.step "m1" mW1 [] rfl PathTo.root))
    (by decide) rfl rfl rfl

/-! ### C2: `deleteBranch` with message deletion removes exactly the
branch-exclusive slice -/

theorem deleteLoop_cons (bs : List Branch) (bid d : String) (D : List String) (ms : Msgs) :
    deleteBranchMsgsLoop bs bid (d :: D) ms =
      deleteBranchMsgsLoop bs bid D
        (if bs.any (fun b2 => b2.id != bid && (getMessagePathM ms b2.tipMessageId).contains d)
         then ms else eraseMsg ms d) := rfl

theorem deleteLoop_spec (c : Chat) (bid : String) :
    ∀ (D : List String) (ms : Msgs) (S : String → Prop),
      (∀ b2 ∈ c.branches, b2.id ≠ bid →
        PathTo ms b2.tipMessageId (getMessagePathM c.messages b2.tipMessageId)) →
      (∀ x, (S x ∧ ¬ UsedByOther c bid x → lookupMsg ms x = none) ∧
            (¬(S x ∧ ¬ UsedByOther c bid x) → lookupMsg ms x = lookupMsg c.messages x)) →
      (∀ b2 ∈ c.branches, b2.id ≠ bid →
        PathTo (deleteBranchMsgsLoop c.branches bid D ms) b2.tipMessageId
          (getMessagePathM c.messages b2.tipMessageId)) ∧
      (∀ x, ((S x ∨ x ∈ D) ∧ ¬ UsedByOther c bid x →
          lookupMsg (deleteBranchMsgsLoop c.branches bid D ms) x = none) ∧
        (¬((S x ∨ x ∈ D) ∧ ¬ UsedByOther c bid x) →
          lookupMsg (deleteBranchMsgsLoop c.branches bid D ms) x = lookupMsg c.messages x)) := by
  intro D
  induction D with
  | nil =>
    intro ms S hA hB
    refine ⟨hA, fun x => ⟨?_, ?_⟩⟩
    · intro ⟨hs, hu⟩
      rcases hs with hs | hs
      · exact (hB x).1 ⟨hs, hu⟩
      · simp at hs
    · intro hn
      refine (hB x).2 ?_
      intro ⟨hs, hu⟩
      exact hn ⟨Or.inl hs, hu⟩
  | cons d D' ih =>
    intro ms S hA hB
    have hcond_iff :
        (c.branches.any (fun b2 =>
          b2.id != bid && (getMessagePathM ms b2.tipMessageId).contains d) = true) ↔
        UsedByOther c bid d := by
      constructor
      · intro h
        obtain ⟨b2, hb2, hprop⟩ := List.any_eq_true.mp h
        rw [Bool.and_eq_true] at hprop
        obtain ⟨hne, hmem⟩ := hprop
        have hne' : b2.id ≠ bid := by simpa using hne
        have hpath := pathTo_getMessagePathM (hA b2 hb2 hne')
        rw [hpath] at hmem
        exact ⟨b2, hb2, hne', by simpa [getMessagePath] using hmem⟩
      · intro h
        obtain ⟨b2, hb2, hne', hmem⟩ := h
        refine List.any_eq_true.mpr ⟨b2, hb2, ?_⟩
        rw [Bool.and_eq_true]
        refine ⟨by simpa using hne', ?_⟩
        rw [pathTo_getMessagePathM (hA b2 hb2 hne')]
        simpa [getMessagePath] using hmem
    rw [deleteLoop_cons]
    by_cases hU : UsedByOther c bid d
    · rw [if_pos (hcond_iff.mpr hU)]
      have hB' : ∀ x,
          ((S x ∨ x = d) ∧ ¬ UsedByOther c bid x → lookupMsg ms x = none) ∧
          (¬((S x ∨ x = d) ∧ ¬ UsedByOther c bid x) →
            lookupMsg ms x = lookupMsg c.messages x) := by
        intro x
        refine ⟨?_, ?_⟩
        · intro ⟨hs, hu⟩
          rcases hs with hs | hs
          · exact (hB x).1 ⟨hs, hu⟩
          · subst hs; exact absurd hU hu
        · intro hn
          exact (hB x).2 (fun hc => hn ⟨Or.inl hc.1, hc.2⟩)
      obtain ⟨IH1, IH2⟩ := ih ms (fun x => S x ∨ x = d) hA hB'
      refine ⟨IH1, fun x => ⟨?_, ?_⟩⟩
      · intro ⟨hs, hu⟩
        refine (IH2 x).1 ⟨?_, hu⟩
        rcases hs with hs | hs
        · exact Or.inl (Or.inl hs)
        · rcases List.mem_cons.mp hs with hs | hs
          · exact Or.inl (Or.inr hs)
          · exact Or.inr hs
      · intro hn
        refine (IH2 x).2 ?_
        intro ⟨hs, hu⟩
        refine hn ⟨?_, hu⟩
        rcases hs with hs | hs
        · rcases hs with hs | hs
          · exact Or.inl hs
          · exact Or.inr (List.mem_cons.mpr (Or.inl hs))
        · exact Or.inr (List.mem_cons.mpr (Or.inr hs))
    · rw [if_neg (fun h => hU (hcond_iff.mp h))]
      have hdnot : ∀ b2 ∈ c.branches, b2.id ≠ bid →
          d ∉ getMessagePathM c.messages b2.tipMessageId := by
        intro b2 hb2 hne hmem
        exact hU ⟨b2, hb2, hne, hmem⟩
      have hA' : ∀ b2 ∈ c.branches, b2.id ≠ bid →
          PathTo (eraseMsg ms d) b2.tipMessageId
            (getMessagePathM c.messages b2.tipMessageId) := by
        intro b2 hb2 hne
        exact pathTo_eraseMsg (hdnot b2 hb2 hne) (hA b2 hb2 hne)
      have hB' : ∀ x,
          ((S x ∨ x = d) ∧ ¬ UsedByOther c bid x →
            lookupMsg (eraseMsg ms d) x = none) ∧
          (¬((S x ∨ x = d) ∧ ¬ UsedByOther c bid x) →
            lookupMsg (eraseMsg ms d) x = lookupMsg c.messages x) := by
        intro x
        rw [lookupMsg_eraseMsg]
        by_cases hxd : x = d
        · subst hxd
          refine ⟨fun _ => by rw [if_pos rfl], ?_⟩
          intro hn
          exact absurd ⟨Or.inr rfl, hU⟩ hn
        · rw [if_neg hxd]
          refine ⟨?_, ?_⟩
          · intro ⟨hs, hu⟩
            rcases hs with hs | hs
            · exact (hB x).1 ⟨hs, hu⟩
            · exact absurd hs hxd
          · intro hn
            exact (hB x).2 (fun hc => hn ⟨Or.inl hc.1, hc.2⟩)
      obtain ⟨IH1, IH2⟩ := ih (eraseMsg ms d) (fun x => S x ∨ x = d) hA' hB'
      refine ⟨IH1, fun x => ⟨?_, ?_⟩⟩
      · intro ⟨hs, hu⟩
        refine (IH2 x).1 ⟨?_, hu⟩
        rcases hs with hs | hs
        · exact Or.inl (Or.inl hs)
        · rcases List.mem_cons.mp hs with hs | hs
          · exact Or.inl (Or.inr hs)
          · exact Or.inr hs
      · intro hn
        refine (IH2 x).2 ?_
        intro ⟨hs, hu⟩
        refine hn ⟨?_, hu⟩
        rcases hs with hs | hs
        · rcases hs with hs | hs
          · exact Or.inl hs
          · exact Or.inr (List.mem_cons.mpr (Or.inl hs))
        · exact Or.inr (List.mem_cons.mpr (Or.inr hs))

/-- C2: for a deletable (non-main) branch `b` with fork point `f` on its
root-to-tip path, `deleteBranch(chatId, b.id, deleteMessages = true)` succeeds
and removes from the message map exactly those messages of the slice of `b`'s
path strictly after `f` that lie on no other branch's root-to-tip path: such
messages are deleted, every other message is retained unchanged, and in
particular the fork point and all its ancestors (the shared prefix) survive.
The chat is assumed to satisfy the documented invariant that every branch
tip's ancestor chain fully resolves. -/

theorem deleteBranch_exclusive (c : Chat) (bid now : String)
    (pre suf : List Branch) (b : Branch) (f : String)
    (hsplit : splitFirstBranch c.branches bid = some (pre, b, suf))
    (hnotmain : b.id ≠ "branch-main")
    (hfork : b.forkPointMessageId = some f)
    (htips : TipsOk c)
    (hfmem : f ∈ getMessagePath c b.tipMessageId) :
    ∃ c', deleteBranch c bid true now = .ok c' ∧
      (∀ x ∈ branchExclusiveSlice c b f, ¬ UsedByOther c bid x →
        lookupMsg c'.messages x = none) ∧
      (∀ x, x ∉ branchExclusiveSlice c b f ∨ UsedByOther c bid x →
        lookupMsg c'.messages x = lookupMsg c.messages x) ∧
      (lookupMsg c.messages f).isSome ∧
      (∀ x ∈ getMessagePath c (some f),
        lookupMsg c'.messages x = lookupMsg c.messages x) := by
  obtain ⟨hbs, hbid, hpreid⟩ := splitFirstBranch_eq hsplit
  have hbmem : b ∈ c.branches := by rw [hbs]; simp
  obtain ⟨L, hL⟩ := htips b hbmem
  have hLpath : getMessagePathM c.messages b.tipMessageId = L := pathTo_getMessagePathM hL
  have hfmem' : f ∈ L := by rw [← hLpath]; exact hfmem
  have hLnodup : L.Nodup := walkTo_nodup hL.walkTo
  obtain ⟨k, hk⟩ := List.get?_of_mem hfmem'
  have hidx : jsIndexOf L f = (k : Int) := jsIndexOf_nodup hLnodup hk
  have htn : ((k : Int) + 1).toNat = k + 1 := by omega
  have hslice : branchExclusiveSlice c b f = L.drop (k + 1) := by
    unfold branchExclusiveSlice getMessagePath
    rw [hLpath, hidx, htn]
  have hOP : ∀ b2 ∈ c.branches, b2.id ≠ bid →
      PathTo c.messages b2.tipMessageId (getMessagePathM c.messages b2.tipMessageId) := by
    intro b2 hb2 _
    obtain ⟨L2, hL2⟩ := htips b2 hb2
    rw [pathTo_getMessagePathM hL2]
    exact hL2
  obtain ⟨HA, HB⟩ := deleteLoop_spec c bid (L.drop (k + 1)) c.messages (fun _ => False)
    hOP (by intro x; exact ⟨fun h => h.1.elim, fun _ => rfl⟩)
  have hfS : (lookupMsg c.messages f).isSome := pathTo_mem_isSome hL f hfmem'
  have hmainB : (b.id == "branch-main") = false := by
    rw [beq_eq_false_iff_ne]; exact hnotmain
  have hkey : ∃ c', deleteBranch c bid true now = .ok c' ∧
      c'.messages = deleteBranchMsgsLoop c.branches bid (L.drop (k + 1)) c.messages := by
    cases hab : (c.activeBranchId == bid) with
    | true =>
      have heq : deleteBranch c bid true now = .ok
          { c with
            messages := deleteBranchMsgsLoop c.branches bid
              ((getMessagePathM c.messages b.tipMessageId).drop
                ((jsIndexOf (getMessagePathM c.messages b.tipMessageId) f + 1).toNat))
              c.messages
            branches := (pre ++ suf).map
              (fun b2 => if b2.id == "branch-main" then { b2 with isActive := true } else b2)
            activeBranchId := "branch-main"
            updatedAt := now } := by
        simp only [deleteBranch, hsplit, hmainB, Bool.false_eq_true, if_false,
          hfork, hab, if_true]
      refine ⟨_, heq, ?_⟩
      dsimp only
      rw [hLpath, hidx, htn]
    | false =>
      have heq : deleteBranch c bid true now = .ok
          { c with
            messages := deleteBranchMsgsLoop c.branches bid
              ((getMessagePathM c.messages b.tipMessageId).drop
                ((jsIndexOf (getMessagePathM c.messages b.tipMessageId) f + 1).toNat))
              c.messages
            branches := pre ++ suf
            updatedAt := now } := by
        simp only [deleteBranch, hsplit, hmainB, Bool.false_eq_true, if_false,
          hfork, hab]
      refine ⟨_, heq, ?_⟩
      dsimp only
      rw [hLpath, hidx, htn]
  obtain ⟨c', hdel, hmsgs⟩ := hkey
  refine ⟨c', hdel, ?_, ?_, hfS, ?_⟩
  · intro x hx hu
    rw [hslice] at hx
    rw [hmsgs]
    exact (HB x).1 ⟨Or.inr hx, hu⟩
  · intro x hx
    rw [hmsgs]
    refine (HB x).2 ?_
    intro ⟨hs, hu⟩
    rcases hs with hs | hs
    · exact hs
    · rw [← hslice] at hs
      rcases hx with hx | hx
      · exact hx hs
      · exact hu hx
  · intro x hxmem
    obtain ⟨k2, hk2get, hwk2⟩ := walkTo_take hL.walkTo f hfmem'
    have hk2 : k2 = k := nodup_get?_inj hLnodup hk2get hk
    subst hk2
    have hfpath : getMessagePathM c.messages (some f) = L.take (k2 + 1) :=
      walkTo_getMessagePathM hwk2 hfS
    rw [getMessagePath] at hxmem
    rw [hfpath] at hxmem
    rw [hmsgs]
    refine (HB x).2 ?_
    intro ⟨hs, hu⟩
    rcases hs with hs | hs
    · exact hs
    · exact mem_take_not_mem_drop hLnodup hxmem hs

/-- Witness for C2 at Scenario D: deleting `b1` with messages removes `m3`
(exclusive) and keeps `m1` (the shared fork point) and `m2`. -/

theorem deleteBranch_exclusive_witness :
    ∃ c', deleteBranch cW2 "b1" true "t5" = .ok c' ∧
      (∀ x ∈ branchExclusiveSlice cW2 bW1 "m1", ¬ UsedByOther cW2 "b1" x →
        lookupMsg c'.messages x = none) ∧
      (∀ x, x ∉ branchExclusiveSlice cW2 bW1 "m1" ∨ UsedByOther cW2 "b1" x →
        lookupMsg c'.messages x = lookupMsg cW2.messages x) ∧
      (lookupMsg cW2.messages "m1").isSome ∧
      (∀ x ∈ getMessagePath cW2 (some "m1"),
        lookupMsg c'.messages x = lookupMsg cW2.messages x) := by
  refine deleteBranch_exclusive cW2 "b1" "t5" [bWmain] [] bW1 "m1"
    (by decide) (by decide) rfl ?_ (by decide)
  intro b hb
  have hb' : b = bWmain ∨ b = bW1 := by
    simpa [cW2, cW] using hb
  rcases hb' with rfl | rfl
  · exact chainTo_of_resolves (by decide)
  · exact chainTo_of_resolves (by decide)

/-! ### Inversion of the success paths of the mutating operations -/

theorem addMessage_ok_inv {c : Chat} {msg : NewMessage} {opts : AddMessageOptions}
    {msgId now : String} {m : Message} {c' : Chat}
    (h : addMessage c msg opts msgId now = .ok (m, c')) :
    ∃ pre branch suf,
      splitFirstBranch c.branches (opts.branchId.getD c.activeBranchId) =
        some (pre, branch, suf) ∧
      m = { id := msgId
            parentId := match opts.parentId with
              | some p => p
              | none => branch.tipMessageId
            role := msg.role, content := msg.content, timestamp := now } ∧
      c'.messages = setMsg c.messages msgId m ∧
      c'.branches = pre ++ ({ branch with tipMessageId := some msgId } :: suf) ∧
      c'.activeBranchId = c.activeBranchId := by
  simp only [addMessage] at h
  cases hsplit : splitFirstBranch c.branches (opts.branchId.getD c.activeBranchId) with
  | none => rw [hsplit] at h; simp at h
  | some pbs =>
    obtain ⟨pre, branch, suf⟩ := pbs
    rw [hsplit] at h
    simp only [Except.ok.injEq, Prod.mk.injEq] at h
    obtain ⟨hm, hc⟩ := h
    refine ⟨pre, branch, suf, rfl, hm.symm, ?_, ?_, ?_⟩
    · rw [← hc]; dsimp only; rw [hm]
    · rw [← hc]
    · rw [← hc]

theorem createBranch_ok_inv {c : Chat} {opts : CreateBranchOptions}
    {branchId now : String} {nb : Branch} {c' : Chat}
    (h : createBranch c opts branchId now = .ok (nb, c')) :
    nb = { id := branchId
           name := opts.name.getD ("Branch " ++ toString (c.branches.length + 1))
           createdAt := now
           forkPointMessageId := opts.forkPointMessageId
           tipMessageId := opts.forkPointMessageId
           isActive := false } ∧
    c'.messages = c.messages ∧
    c'.branches = c.branches ++ [nb] ∧
    c'.activeBranchId = c.activeBranchId := by
  simp only [createBranch] at h
  by_cases hf : (match opts.forkPointMessageId with
    | some fp => (lookupMsg c.messages fp).isSome
    | none => true) = true
  · rw [if_pos hf] at h
    simp only [Except.ok.injEq, Prod.mk.injEq] at h
    obtain ⟨hb, hc⟩ := h
    refine ⟨hb.symm, ?_, ?_, ?_⟩
    · rw [← hc]
    · rw [← hc]; dsimp only; rw [hb]
    · rw [← hc]
  · rw [if_neg hf] at h
    simp at h

theorem setActiveBranch_ok_inv {c : Chat} {branchId now : String} {c' : Chat}
    (h : setActiveBranch c branchId now = .ok c') :
    (∃ b ∈ c.branches, b.id = branchId) ∧
    c'.messages = c.messages ∧
    c'.branches = c.branches.map (fun b => { b with isActive := b.id == branchId }) ∧
    c'.activeBranchId = branchId := by
  simp only [setActiveBranch] at h
  by_cases hf : (findBranch c.branches branchId).isSome = true
  · rw [if_pos hf] at h
    simp only [Except.ok.injEq] at h
    obtain ⟨b, hb⟩ := Option.isSome_iff_exists.mp hf
    obtain ⟨hmem, hid⟩ := findBranch_eq_some hb
    exact ⟨⟨b, hmem, hid⟩, by rw [← h], by rw [← h], by rw [← h]⟩
  · rw [if_neg hf] at h
    simp at h

theorem updateBranch_ok_inv {c : Chat} {branchId : String} {name : Option String}
    {now : String} {c' : Chat}
    (h : updateBranch c branchId name now = .ok c') :
    ∃ pre b suf,
      splitFirstBranch c.branches branchId = some (pre, b, suf) ∧
      c'.messages = c.messages ∧
      c'.branches = pre ++
        ((name.elim b (fun n => { b with name := n })) :: suf) ∧
      c'.activeBranchId = c.activeBranchId := by
  simp only [updateBranch] at h
  cases hsplit : splitFirstBranch c.branches branchId with
  | none => rw [hsplit] at h; simp at h
  | some pbs =>
    obtain ⟨pre, b, suf⟩ := pbs
    rw [hsplit] at h
    simp only [Except.ok.injEq] at h
    refine ⟨pre, b, suf, rfl, by rw [← h], ?_, by rw [← h]⟩
    rw [← h]
    cases name <;> rfl

theorem deleteBranch_ok_inv {c : Chat} {branchId : String} {dm : Bool}
    {now : String} {c' : Chat}
    (h : deleteBranch c branchId dm now = .ok c') :
    ∃ pre b suf,
      splitFirstBranch c.branches branchId = some (pre, b, suf) ∧
      b.id ≠ "branch-main" ∧
      c'.messages = (if dm then
          b.forkPointMessageId.elim c.messages (fun fork =>
            deleteBranchMsgsLoop c.branches branchId
              ((getMessagePathM c.messages b.tipMessageId).drop
                ((jsIndexOf (getMessagePathM c.messages b.tipMessageId) fork + 1).toNat))
              c.messages)
        else c.messages) ∧
      ((c.activeBranchId = branchId ∧
          c'.branches = (pre ++ suf).map
            (fun b2 => if b2.id == "branch-main" then { b2 with isActive := true } else b2) ∧
          c'.activeBranchId = "branch-main") ∨
        (c.activeBranchId ≠ branchId ∧
          c'.branches = pre ++ suf ∧
          c'.activeBranchId = c.activeBranchId)) := by
  simp only [deleteBranch] at h
  cases hsplit : splitFirstBranch c.branches branchId with
  | none => rw [hsplit] at h; simp at h
  | some pbs =>
    obtain ⟨pre, b, suf⟩ := pbs
    rw [hsplit] at h
    dsimp only at h
    by_cases hmain : (b.id == "branch-main") = true
    · rw [if_pos hmain] at h
      simp at h
    · rw [Bool.not_eq_true] at hmain
      rw [hmain] at h
      simp only [Bool.false_eq_true, if_false] at h
      refine ⟨pre, b, suf, rfl, by simpa [beq_eq_false_iff_ne] using hmain, ?_⟩
      cases hab : (c.activeBranchId == branchId) with
      | true =>
        rw [hab] at h
        simp only [if_true, Except.ok.injEq] at h
        refine ⟨?_, Or.inl ⟨by simpa using hab, by rw [← h], by rw [← h]⟩⟩
        rw [← h]
        cases dm with
        | false => rfl
        | true =>
          cases hfk : b.forkPointMessageId with
          | none => simp [hfk]
          | some fork => simp [hfk]
      | false =>
        rw [hab] at h
        simp only [Bool.false_eq_true, if_false, Except.ok.injEq] at h
        refine ⟨?_, Or.inr ⟨by simpa [beq_eq_false_iff_ne] using hab,
          by rw [← h], by rw [← h]⟩⟩
        rw [← h]
        cases dm with
        | false => rfl
        | true =>
          cases hfk : b.forkPointMessageId with
          | none => simp [hfk]
          | some fork => simp [hfk]

/-! ### C3: exactly one active branch -/

theorem ids_ne_of_nodup {pre suf : List Branch} {b x : Branch}
    (hnd : ((pre ++ b :: suf).map Branch.id).Nodup) (hx : x ∈ pre ++ suf) :
    x.id ≠ b.id := by
  rw [List.map_append, List.map_cons, List.nodup_append] at hnd
  obtain ⟨hpre, hcons, hdisj⟩ := hnd
  rcases List.mem_append.mp hx with hx' | hx'
  · intro he
    exact hdisj (List.mem_map_of_mem Branch.id hx') (by rw [he]; simp)
  · intro he
    have := (List.nodup_cons.mp hcons).1
    exact this (by rw [← he]; exact List.mem_map_of_mem Branch.id hx')

theorem mem_without_mid {pre suf : List Branch} {b x : Branch}
    (hx : x ∈ pre ++ b :: suf) (hne : x.id ≠ b.id) : x ∈ pre ++ suf := by
  rcases List.mem_append.mp hx with hx' | hx'
  · exact List.mem_append_left _ hx'
  · rcases List.mem_cons.mp hx' with rfl | hx''
    · exact absurd rfl hne
    · exact List.mem_append_right _ hx''

theorem activeOk_replace {c c' : Chat} {pre suf : List Branch} {b b' : Branch}
    (hbs : c.branches = pre ++ b :: suf)
    (hbs' : c'.branches = pre ++ b' :: suf)
    (hid : b'.id = b.id) (hact : b'.isActive = b.isActive)
    (hab : c'.activeBranchId = c.activeBranchId)
    (hinv : ActiveOk c) : ActiveOk c' := by
  obtain ⟨hnd, hmain, hactive, hiff⟩ := hinv
  rw [hbs] at hnd hmain hactive hiff
  refine ⟨?_, ?_, ?_, ?_⟩
  · rw [hbs']
    simpa [hid] using hnd
  · rw [hbs']
    obtain ⟨b0, hb0, hb0id⟩ := hmain
    rcases List.mem_append.mp hb0 with h0 | h0
    · exact ⟨b0, List.mem_append_left _ h0, hb0id⟩
    · rcases List.mem_cons.mp h0 with rfl | h0'
      · exact ⟨b', by simp, by rw [hid]; exact hb0id⟩
      · exact ⟨b0, by simp [h0'], hb0id⟩
  · rw [hbs', hab]
    obtain ⟨b0, hb0, hb0id⟩ := hactive
    rcases List.mem_append.mp hb0 with h0 | h0
    · exact ⟨b0, List.mem_append_left _ h0, hb0id⟩
    · rcases List.mem_cons.mp h0 with rfl | h0'
      · exact ⟨b', by simp, by rw [hid]; exact hb0id⟩
      · exact ⟨b0, by simp [h0'], hb0id⟩
  · rw [hbs', hab]
    intro x hx
    rcases List.mem_append.mp hx with h0 | h0
    · exact hiff x (List.mem_append_left _ h0)
    · rcases List.mem_cons.mp h0 with rfl | h0'
      · rw [hact, hid]
        exact hiff b (by simp)
      · exact hiff x (by simp [h0'])

theorem activeOk_append_inactive {c c' : Chat} {nb : Branch}
    (hbs' : c'.branches = c.branches ++ [nb])
    (hact : nb.isActive = false) (hfresh : ∀ b ∈ c.branches, b.id ≠ nb.id)
    (hab : c'.activeBranchId = c.activeBranchId)
    (hinv : ActiveOk c) : ActiveOk c' := by
  obtain ⟨hnd, hmain, hactive, hiff⟩ := hinv
  have hnbne : nb.id ≠ c.activeBranchId := by
    obtain ⟨a, ha, haid⟩ := hactive
    intro he
    exact hfresh a ha (by rw [haid, ← he])
  refine ⟨?_, ?_, ?_, ?_⟩
  · rw [hbs', List.map_append, List.nodup_append]
    refine ⟨hnd, by simp, ?_⟩
    intro x hx hx'
    simp only [List.map_cons, List.map_nil, List.mem_singleton] at hx'
    obtain ⟨b0, hb0, hb0id⟩ := List.mem_map.mp hx
    exact hfresh b0 hb0 (by rw [hb0id, hx'])
  · rw [hbs']
    obtain ⟨b0, hb0, hb0id⟩ := hmain
    exact ⟨b0, List.mem_append_left _ hb0, hb0id⟩
  · rw [hbs', hab]
    obtain ⟨b0, hb0, hb0id⟩ := hactive
    exact ⟨b0, List.mem_append_left _ hb0, hb0id⟩
  · rw [hbs', hab]
    intro x hx
    rcases List.mem_append.mp hx with h0 | h0
    · exact hiff x h0
    · rw [List.mem_singleton.mp h0, hact]
      constructor
      · intro h; cases h
      · intro h; exact absurd h.symm (by rw [List.mem_singleton.mp h0] at hx; exact fun he => hnbne he.symm)

theorem activeOk_setActive {c c' : Chat} {bid : String}
    (hbs' : c'.branches = c.branches.map (fun b => { b with isActive := b.id == bid }))
    (hex : ∃ b ∈ c.branches, b.id = bid)
    (hab : c'.activeBranchId = bid)
    (hinv : ActiveOk c) : ActiveOk c' := by
  obtain ⟨hnd, hmain, _, _⟩ := hinv
  refine ⟨?_, ?_, ?_, ?_⟩
  · rw [hbs', List.map_map]
    exact hnd
  · rw [hbs']
    obtain ⟨b0, hb0, hb0id⟩ := hmain
    exact ⟨_, List.mem_map_of_mem _ hb0, hb0id⟩
  · rw [hbs', hab]
    obtain ⟨b0, hb0, hb0id⟩ := hex
    exact ⟨_, List.mem_map_of_mem _ hb0, hb0id⟩
  · rw [hbs', hab]
    intro x hx
    obtain ⟨b0, hb0, hb0eq⟩ := List.mem_map.mp hx
    rw [← hb0eq]
    simp [beq_iff_eq]

theorem activeOk_deleteActive {c c' : Chat} {pre suf : List Branch} {b : Branch}
    (hbs : c.branches = pre ++ b :: suf)
    (hnotmain : b.id ≠ "branch-main")
    (hdel : c.activeBranchId = b.id)
    (hbs' : c'.branches = (pre ++ suf).map
      (fun b2 => if b2.id == "branch-main" then { b2 with isActive := true } else b2))
    (hab : c'.activeBranchId = "branch-main")
    (hinv : ActiveOk c) : ActiveOk c' := by
  obtain ⟨hnd, hmain, hactive, hiff⟩ := hinv
  rw [hbs] at hnd hmain hiff
  have hids : ∀ b2 : Branch,
      ((if b2.id == "branch-main" then { b2 with isActive := true } else b2) : Branch).id
        = b2.id := by
    intro b2
    by_cases h : (b2.id == "branch-main") = true
    · rw [if_pos h]
    · rw [Bool.not_eq_true] at h; rw [h]; simp
  refine ⟨?_, ?_, ?_, ?_⟩
  · rw [hbs', List.map_map]
    have : (Branch.id ∘ fun b2 =>
        if b2.id == "branch-main" then { b2 with isActive := true } else b2)
        = Branch.id := by
      funext b2
      exact hids b2
    rw [this]
    refine List.Nodup.sublist ?_ hnd
    refine List.Sublist.map Branch.id ?_
    exact List.Sublist.append_left (List.sublist_cons_self b suf) pre
  · rw [hbs']
    obtain ⟨b0, hb0, hb0id⟩ := hmain
    have hb0ne : b0.id ≠ b.id := by rw [hb0id]; exact fun he => hnotmain he.symm
    refine ⟨_, List.mem_map_of_mem _ (mem_without_mid hb0 hb0ne), ?_⟩
    rw [hids b0]
    exact hb0id
  · rw [hbs', hab]
    obtain ⟨b0, hb0, hb0id⟩ := hmain
    have hb0ne : b0.id ≠ b.id := by rw [hb0id]; exact fun he => hnotmain he.symm
    refine ⟨_, List.mem_map_of_mem _ (mem_without_mid hb0 hb0ne), ?_⟩
    rw [hids b0]
    exact hb0id
  · rw [hbs', hab]
    intro x hx
    obtain ⟨b0, hb0, hb0eq⟩ := List.mem_map.mp hx
    rw [← hb0eq]
    have hmem : b0 ∈ pre ++ b :: suf := by
      rcases List.mem_append.mp hb0 with h0 | h0
      · exact List.mem_append_left _ h0
      · exact List.mem_append_right _ (List.mem_cons_of_mem b h0)
    by_cases hm : (b0.id == "branch-main") = true
    · rw [if_pos hm]
      simp only [beq_iff_eq] at hm
      simp [hm]
    · rw [Bool.not_eq_true] at hm
      rw [hm]
      simp only [Bool.false_eq_true, if_false]
      rw [beq_eq_false_iff_ne] at hm
      constructor
      · intro hacty
        have := (hiff b0 hmem).mp hacty
        rw [hdel] at this
        exact absurd this (ids_ne_of_nodup hnd hb0)
      · intro h
        exact absurd h hm

theorem activeOk_deleteInactive {c c' : Chat} {pre suf : List Branch} {b : Branch}
    (hbs : c.branches = pre ++ b :: suf)
    (hnotmain : b.id ≠ "branch-main")
    (hdel : c.activeBranchId ≠ b.id)
    (hbs' : c'.branches = pre ++ suf)
    (hab : c'.activeBranchId = c.activeBranchId)
    (hinv : ActiveOk c) : ActiveOk c' := by
  obtain ⟨hnd, hmain, hactive, hiff⟩ := hinv
  rw [hbs] at hnd hmain hactive hiff
  refine ⟨?_, ?_, ?_, ?_⟩
  · rw [hbs']
    refine List.Nodup.sublist ?_ hnd
    refine List.Sublist.map Branch.id ?_
    exact List.Sublist.append_left (List.sublist_cons_self b suf) pre
  · rw [hbs']
    obtain ⟨b0, hb0, hb0id⟩ := hmain
    have hb0ne : b0.id ≠ b.id := by rw [hb0id]; exact fun he => hnotmain he.symm
    exact ⟨b0, mem_without_mid hb0 hb0ne, hb0id⟩
  · rw [hbs', hab]
    obtain ⟨b0, hb0, hb0id⟩ := hactive
    have hb0ne : b0.id ≠ b.id := fun he => hdel (by rw [← hb0id]; exact he)
    exact ⟨b0, mem_without_mid hb0 hb0ne, hb0id⟩
  · rw [hbs', hab]
    intro x hx
    refine hiff x ?_
    rcases List.mem_append.mp hx with h0 | h0
    · exact List.mem_append_left _ h0
    · exact List.mem_append_right _ (List.mem_cons_of_mem b h0)

theorem activeOk_clearMessages (c : Chat) (now : String) :
    ActiveOk (clearMessages c now) := by
  refine ⟨by simp [clearMessages], ⟨_, List.mem_singleton.mpr rfl, rfl⟩,
    ⟨_, List.mem_singleton.mpr rfl, rfl⟩, ?_⟩
  intro b hb
  simp only [clearMessages, List.mem_singleton] at hb
  subst hb
  simp [clearMessages]

theorem step_activeOk {safe : Bool} {c c' : Chat}
    (hstep : StepR safe c c') (hinv : ActiveOk c) : ActiveOk c' := by
  cases hstep with
  | add message options msgId now hfresh hsafe h =>
    obtain ⟨pre, branch, suf, hsplit, hm, hmsgs, hbs', hab⟩ := addMessage_ok_inv h
    obtain ⟨hbs, _, _⟩ := splitFirstBranch_eq hsplit
    exact activeOk_replace hbs hbs' rfl rfl hab hinv
  | newBranch options branchId now hfresh hsafe h =>
    obtain ⟨hnb, hmsgs, hbs', hab⟩ := createBranch_ok_inv h
    refine activeOk_append_inactive hbs' (by rw [hnb]) ?_ hab hinv
    intro b2 hb2
    rw [hnb]
    exact hfresh b2 hb2
  | setActive branchId now h =>
    obtain ⟨hex, hmsgs, hbs', hab⟩ := setActiveBranch_ok_inv h
    exact activeOk_setActive hbs' hex hab hinv
  | rename branchId name now h =>
    obtain ⟨pre, b, suf, hsplit, hmsgs, hbs', hab⟩ := updateBranch_ok_inv h
    obtain ⟨hbs, _, _⟩ := splitFirstBranch_eq hsplit
    refine activeOk_replace hbs hbs' ?_ ?_ hab hinv <;> cases name <;> rfl
  | remove branchId dm now h =>
    obtain ⟨pre, b, suf, hsplit, hnotmain, hmsgs, hcase⟩ := deleteBranch_ok_inv h
    obtain ⟨hbs, hbid, _⟩ := splitFirstBranch_eq hsplit
    rcases hcase with ⟨hact, hbs', hab⟩ | ⟨hact, hbs', hab⟩
    · exact activeOk_deleteActive hbs hnotmain (by rw [hact, hbid]) hbs' hab hinv
    · exact activeOk_deleteInactive hbs hnotmain (by rw [hbid]; exact hact) hbs' hab hinv
  | clear now => exact activeOk_clearMessages c now

theorem initial_activeOk {c : Chat} (h : InitialChat c) : ActiveOk c := by
  cases h with
  | create id templateId title providerOverride now dateStr =>
    refine ⟨by simp [createChat], ⟨_, List.mem_singleton.mpr rfl, rfl⟩,
      ⟨_, List.mem_singleton.mpr rfl, rfl⟩, ?_⟩
    intro b hb
    simp only [createChat, List.mem_singleton] at hb
    subst hb
    simp [createChat]
  | migrate fresh v1 c' hids h =>
    simp only [migrateToTreeStructure] at h
    rcases hmm : migrateMsgs fresh v1.messages 0 [] none with ⟨msgsObj, prevId⟩
    rw [hmm] at h
    simp only [Option.some.injEq] at h
    injection h with h
    subst h
    refine ⟨by simp, ⟨_, List.mem_singleton.mpr rfl, rfl⟩,
      ⟨_, List.mem_singleton.mpr rfl, rfl⟩, ?_⟩
    intro b hb
    simp only [List.mem_singleton] at hb
    subst hb
    simp

theorem eq_of_mem_nodup_ids {l : List Branch} (hnd : (l.map Branch.id).Nodup)
    {a b2 : Branch} (ha : a ∈ l) (hb : b2 ∈ l) (hid : b2.id = a.id) : b2 = a := by
  obtain ⟨i, hi⟩ := List.get?_of_mem hb
  obtain ⟨j, hj⟩ := List.get?_of_mem ha
  have hi' : (l.map Branch.id).get? i = some b2.id := by
    rw [List.get?_map, hi]; rfl
  have hj' : (l.map Branch.id).get? j = some a.id := by
    rw [List.get?_map, hj]; rfl
  have hij := nodup_get?_inj hnd hi' (by rw [← hid] at hj'; exact hj')
  subst hij
  have h2 := hi.symm.trans hj
  simpa using h2

/-- C3: in every chat state reachable by any sequence of core operations
(from `createChat` or the v1-to-v2 migration), exactly one branch has
`isActive = true` and `activeBranchId` is that branch's id: `setActiveBranch`
deactivates all other branches, `createBranch` adds the new branch inactive,
and `deleteBranch` of the active branch reactivates the main branch. -/

theorem reachable_exactly_one_active {c : Chat} (hc : Reachable c) :
    ∃ b, b ∈ c.branches ∧ b.isActive = true ∧ c.activeBranchId = b.id ∧
      ∀ b2 ∈ c.branches, b2.isActive = true → b2 = b := by
  obtain ⟨c0, hinit, hstar⟩ := hc
  have hinv : ActiveOk c := by
    induction hstar with
    | refl => exact initial_activeOk hinit
    | tail _ hstep ih => exact step_activeOk hstep ih
  obtain ⟨hnd, _, ⟨a, ha, haid⟩, hiff⟩ := hinv
  refine ⟨a, ha, (hiff a ha).mpr haid, haid.symm, ?_⟩
  intro b2 hb2 hb2act
  have hb2id : b2.id = c.activeBranchId := (hiff b2 hb2).mp hb2act
  exact eq_of_mem_nodup_ids hnd ha hb2 (by rw [hb2id, haid])

/-- Witness for C3 after a `createBranch` and a `setActiveBranch` step. -/

theorem reachable_exactly_one_active_witness :
    ∃ b, b ∈ c3w2.branches ∧ b.isActive = true ∧ c3w2.activeBranchId = b.id ∧
      ∀ b2 ∈ c3w2.branches, b2.isActive = true → b2 = b :=
  reachable_exactly_one_active
    ⟨c3w0, InitialChat.create "c" "tpl" none none "t0" "d0",
      Relation.ReflTransGen.tail
        (Relation.ReflTransGen.tail Relation.ReflTransGen.refl
          (StepR.newBranch {} "b1" "t1" (by decide)
            (fun h => absurd h Bool.false_ne_true) rfl))
        (StepR.setActive "b1" "t2" rfl)⟩

/-! ### C1: branch-tip ancestor chains under safe operation sequences -/

theorem fresh_inj_of_nodup {fresh : Nat → String} {n : Nat}
    (hids : ((List.range n).map fresh).Nodup) :
    ∀ i j, i < n → j < n → fresh i = fresh j → i = j := by
  intro i j hi hj he
  have h1 : ((List.range n).map fresh).get ⟨i, by simpa using hi⟩ = fresh i := by simp
  have h2 : ((List.range n).map fresh).get ⟨j, by simpa using hj⟩ = fresh j := by simp
  have := (List.Nodup.get_inj_iff hids
    (i := ⟨i, by simpa using hi⟩) (j := ⟨j, by simpa using hj⟩)).mp
    (by rw [h1, h2, he])
  exact Fin.mk_eq_mk.mp this

theorem tipsOk_clearMessages (c : Chat) (now : String) : TipsOk (clearMessages c now) := by
  intro b hb
  simp only [clearMessages, List.mem_singleton] at hb
  subst hb
  exact ⟨[], PathTo.root⟩

theorem step_tipsOk {c c' : Chat} (hstep : StepR true c c')
    (hactive : ActiveOk c) (htips : TipsOk c) : TipsOk c' := by
  cases hstep with
  | add message options msgId now hfresh hsafe h =>
    obtain ⟨pre, branch, suf, hsplit, hm, hmsgs, hbs', hab⟩ := addMessage_ok_inv h
    obtain ⟨hbs, _, _⟩ := splitFirstBranch_eq hsplit
    have hparent : ChainTo c.messages (match options.parentId with
        | some p => p
        | none => branch.tipMessageId) := by
      cases hopt : options.parentId with
      | none => exact htips branch (by rw [hbs]; simp)
      | some p =>
        cases p with
        | none => exact ⟨[], PathTo.root⟩
        | some pid => exact hsafe rfl pid (by rw [hopt])
    intro b2 hb2
    rw [hbs'] at hb2
    rw [hmsgs]
    rcases List.mem_append.mp hb2 with h0 | h0
    · exact chainTo_setMsg hfresh (htips b2 (by rw [hbs]; exact List.mem_append_left _ h0))
    · rcases List.mem_cons.mp h0 with rfl | h0'
      · show ChainTo _ (some msgId)
        obtain ⟨l, hl⟩ := hparent
        refine ⟨l ++ [msgId], PathTo.step msgId
          { id := msgId
            parentId := match options.parentId with
              | some p => p
              | none => branch.tipMessageId
            role := message.role, content := message.content, timestamp := now }
          l ?_ ?_⟩
        · rw [lookupMsg_setMsg, if_pos rfl, hm]
        · exact pathTo_setMsg hfresh hl
      · exact chainTo_setMsg hfresh (htips b2 (by
          rw [hbs]; exact List.mem_append_right _ (List.mem_cons_of_mem branch h0')))
  | newBranch options branchId now hfresh hsafe h =>
    obtain ⟨hnb, hmsgs, hbs', hab⟩ := createBranch_ok_inv h
    intro b2 hb2
    rw [hbs'] at hb2
    rw [hmsgs]
    rcases List.mem_append.mp hb2 with h0 | h0
    · exact htips b2 h0
    · rw [List.mem_singleton.mp h0, hnb]
      show ChainTo c.messages options.forkPointMessageId
      cases hopt : options.forkPointMessageId with
      | none => exact ⟨[], PathTo.root⟩
      | some fp => exact hsafe rfl fp hopt
  | setActive branchId now h =>
    obtain ⟨hex, hmsgs, hbs', hab⟩ := setActiveBranch_ok_inv h
    intro b2 hb2
    rw [hbs'] at hb2
    rw [hmsgs]
    obtain ⟨b0, hb0, hb0eq⟩ := List.mem_map.mp hb2
    rw [← hb0eq]
    exact htips b0 hb0
  | rename branchId name now h =>
    obtain ⟨pre, b, suf, hsplit, hmsgs, hbs', hab⟩ := updateBranch_ok_inv h
    obtain ⟨hbs, _, _⟩ := splitFirstBranch_eq hsplit
    intro b2 hb2
    rw [hbs'] at hb2
    rw [hmsgs]
    rcases List.mem_append.mp hb2 with h0 | h0
    · exact htips b2 (by rw [hbs]; exact List.mem_append_left _ h0)
    · rcases List.mem_cons.mp h0 with rfl | h0'
      · have htip : (name.elim b fun n => { b with name := n }).tipMessageId
            = b.tipMessageId := by cases name <;> rfl
        rw [htip]
        exact htips b (by rw [hbs]; simp)
      · exact htips b2 (by
          rw [hbs]; exact List.mem_append_right _ (List.mem_cons_of_mem b h0'))
  | remove branchId dm now h =>
    obtain ⟨pre, b, suf, hsplit, hnotmain, hmsgs, hcase⟩ := deleteBranch_ok_inv h
    obtain ⟨hbs, hbid, _⟩ := splitFirstBranch_eq hsplit
    have hnd : ((pre ++ b :: suf).map Branch.id).Nodup := by
      rw [← hbs]; exact hactive.1
    have HH : ∀ b2 ∈ c.branches, b2.id ≠ branchId →
        ChainTo c'.messages b2.tipMessageId := by
      intro b2 hb2 hne
      rw [hmsgs]
      cases dm with
      | false => exact htips b2 hb2
      | true =>
        cases hfk : b.forkPointMessageId with
        | none => simp only [if_true, hfk, Option.elim]; exact htips b2 hb2
        | some fork =>
          simp only [if_true, hfk, Option.elim]
          have hOP : ∀ b3 ∈ c.branches, b3.id ≠ branchId →
              PathTo c.messages b3.tipMessageId
                (getMessagePathM c.messages b3.tipMessageId) := by
            intro b3 hb3 _
            obtain ⟨L3, hL3⟩ := htips b3 hb3
            rw [pathTo_getMessagePathM hL3]
            exact hL3
          obtain ⟨HA, _⟩ := deleteLoop_spec c branchId
            ((getMessagePathM c.messages b.tipMessageId).drop
              ((jsIndexOf (getMessagePathM c.messages b.tipMessageId) fork + 1).toNat))
            c.messages (fun _ => False) hOP
            (by intro x; exact ⟨fun hx => hx.1.elim, fun _ => rfl⟩)
          exact ⟨_, HA b2 hb2 hne⟩
    rcases hcase with ⟨hact, hbs', hab⟩ | ⟨hact, hbs', hab⟩
    · intro b2 hb2
      rw [hbs'] at hb2
      obtain ⟨b0, hb0, hb0eq⟩ := List.mem_map.mp hb2
      have htip : b2.tipMessageId = b0.tipMessageId := by
        rw [← hb0eq]
        by_cases hm0 : (b0.id == "branch-main") = true
        · rw [if_pos hm0]
        · rw [Bool.not_eq_true] at hm0; rw [hm0]; simp
      rw [htip]
      refine HH b0 ?_ ?_
      · rw [hbs]
        rcases List.mem_append.mp hb0 with h0 | h0
        · exact List.mem_append_left _ h0
        · exact List.mem_append_right _ (List.mem_cons_of_mem b h0)
      · rw [← hbid]
        exact ids_ne_of_nodup hnd hb0
    · intro b2 hb2
      rw [hbs'] at hb2
      refine HH b2 ?_ ?_
      · rw [hbs]
        rcases List.mem_append.mp hb2 with h0 | h0
        · exact List.mem_append_left _ h0
        · exact List.mem_append_right _ (List.mem_cons_of_mem b h0)
      · rw [← hbid]
        exact ids_ne_of_nodup hnd hb2
  | clear now => exact tipsOk_clearMessages c now

theorem initial_tipsOk {c : Chat} (h : InitialChat c) : TipsOk c := by
  cases h with
  | create id templateId title providerOverride now dateStr =>
    intro b hb
    simp only [createChat, List.mem_singleton] at hb
    subst hb
    exact ⟨[], PathTo.root⟩
  | migrate fresh v1 c' hids h =>
    have hinj := fresh_inj_of_nodup hids
    have hm := migrateMsgs_eq fresh v1.messages 0 [] none
      (by intro i _ _; rfl)
      (by intro i j _ _ hi hj he; exact hinj i j (by omega) (by omega) he)
    simp only [migrateToTreeStructure] at h
    rw [hm] at h
    simp only [Option.some.injEq] at h
    injection h with h
    subst h
    intro b hb
    simp only [List.mem_singleton] at hb
    subst hb
    simp only [List.nil_append]
    cases hms : v1.messages with
    | nil => simp [hms]; exact ⟨[], PathTo.root⟩
    | cons m0 rest =>
      simp only [hms, List.isEmpty_cons, Bool.false_eq_true, if_false]
      have := pathTo_linChain fresh v1.messages
        (fun i j hi hj he => hinj i j hi hj he)
        (v1.messages.length - 1) (by rw [hms]; simp)
      rw [hms] at this
      simpa using this

/-- C1 counterexample: the invariant is violable by core operations.  A single
`addMessage` with the unvalidated explicit option `parentId = "ghost"` makes
the main branch's tip chain reference the absent id `ghost`, so not every
reachable chat has fully resolving tip chains. -/

theorem reachable_tips_counterexample :
    ¬ (∀ c, Reachable c → ∀ b ∈ c.branches, ChainTo c.messages b.tipMessageId) := by
  intro h
  have hreach : Reachable cBad :=
    ⟨cBad0, InitialChat.create "c" "tpl" none none "t0" "d0",
      Relation.ReflTransGen.single
        (StepR.add ⟨"user", "hi"⟩ { parentId := some (some "ghost") } "m1" "t1"
          (by decide) (fun hh => absurd hh Bool.false_ne_true) rfl)⟩
  obtain ⟨b, hbmem, hbtip⟩ : ∃ b ∈ cBad.branches, b.tipMessageId = some "m1" := by decide
  have hc := h cBad hreach b hbmem
  rw [hbtip] at hc
  obtain ⟨l, hl⟩ := hc
  obtain ⟨m, l', hlook, hp, _⟩ := pathTo_some_inv hl
  have h2 : lookupMsg cBad.messages "m1" =
      some { id := "m1", parentId := some "ghost", role := "user",
             content := "hi", timestamp := "t1" } := by decide
  rw [h2] at hlook
  injection hlook with hlook
  rw [← hlook] at hp
  obtain ⟨m2, l2, hlook2, _, _⟩ := pathTo_some_inv hp
  have h3 : lookupMsg cBad.messages "ghost" = none := by decide
  rw [h3] at hlook2
  cases hlook2

/-- C1 (amended): in every chat reachable from `createChat` or the v1-to-v2
migration by core operations in which every explicitly supplied `parentId`
(`addMessage`) and every `forkPointMessageId` (`createBranch`) refers to a
message whose own ancestor chain fully resolves, following `parentId` links
from any branch's `tipMessageId` reaches a root without ever referencing a
message id absent from the chat's message map, and without cycles.  (Without
that proviso the invariant fails: `addMessage` does not validate an explicit
parent, and `createBranch` accepts a fork point whose ancestors were deleted.) -/

theorem reachableSafe_tips_resolve {c : Chat} (hc : ReachableSafe c) :
    ∀ b ∈ c.branches, ChainTo c.messages b.tipMessageId := by
  obtain ⟨c0, hinit, hstar⟩ := hc
  have hinv : ActiveOk c ∧ TipsOk c := by
    induction hstar with
    | refl => exact ⟨initial_activeOk hinit, initial_tipsOk hinit⟩
    | tail _ hstep ih =>
      exact ⟨step_activeOk hstep ih.1, step_tipsOk hstep ih.1 ih.2⟩
  exact hinv.2

/-- Witness for C1: the amended invariant at a concrete safely reachable chat
whose main branch has tip `m1` — that tip's ancestor chain resolves. -/

theorem reachableSafe_tips_resolve_witness :
    ChainTo cSafe.messages (some "m1") := by
  have h := reachableSafe_tips_resolve (c := cSafe)
    ⟨cBad0, InitialChat.create "c" "tpl" none none "t0" "d0",
      Relation.ReflTransGen.single
        (StepR.add ⟨"user", "hi"⟩ {} "m1" "t1" (by decide)
          (fun _ p hp => Option.noConfusion hp) rfl)⟩
  obtain ⟨b, hb, htip⟩ : ∃ b ∈ cSafe.branches, b.tipMessageId = some "m1" := by decide
  have hc := h b hb
  rw [htip] at hc
  exact hc

end ChatService
